import Mathlib

/-! The key-value caches of `no_3/cache.go`.

A shallow embedding of `SimpleCache` and `TTLCache`.

* A Go `map[string]T` is an association list `List (String × T)`.  The three
  map primitives the source uses (index with the comma-ok form, assignment,
  the `delete` builtin) are `mapGet`, `mapSet` and `mapDelete`.
* An `interface{}` value is `Option V`: `none` is the nil interface.
* An `error` result is `Option CacheError`: `none` is `nil`.
* `time.Time` instants and `time.Duration` values are integers counting
  nanoseconds; `time.Now()` is an explicit argument `now` of every method
  that reads the clock.
* A method with a pointer receiver returns its results paired with the
  receiver after the call.  The `sync.RWMutex` makes each method body one
  atomic step, so a method is a function on states.
-/

namespace Cache

/-! ## Errors and values -/

/-- The four package-level error values. -/
inductive CacheError where
  | ErrKeyNotFound
  | ErrInvalidKey
  | ErrInvalidTTL
  | ErrCacheClosed
deriving DecidableEq

/-- A Go `error`: `none` is `nil`. -/
abbrev Error := Option CacheError

/-- A Go `interface{}` holding a `V`: `none` is the nil interface. -/
abbrev Iface (V : Type) := Option V

/-! ## Go maps -/

/-- A Go `map[string]T`. -/
abbrev GoMap (T : Type) := List (String × T)

/-- The comma-ok index expression `v, ok := m[key]`. -/
def mapGet {T : Type} (m : GoMap T) (key : String) : Option T :=
  match m with
  | [] => none
  | (k, v) :: rest => if k = key then some v else mapGet rest key

/-- The builtin `delete(m, key)`. -/
def mapDelete {T : Type} (m : GoMap T) (key : String) : GoMap T :=
  m.filter (fun e => decide (e.1 ≠ key))

/-- The assignment `m[key] = v`. -/
def mapSet {T : Type} (m : GoMap T) (key : String) (v : T) : GoMap T :=
  (key, v) :: mapDelete m key

/-- The result of `make(map[string]T)`. -/
def mapMake (T : Type) : GoMap T := []

/-! ## `validateKey` -/

/-- The function `validateKey`. -/
def validateKey (key : String) : Error :=
  if key = "" then some CacheError.ErrInvalidKey else none

/-! ## `SimpleCache` -/

/-- The struct `SimpleCache` (the mutex is left out). -/
structure SimpleCache (V : Type) where
  data : GoMap (Iface V)
deriving DecidableEq

/-- The constructor `NewSimpleCache`. -/
def NewSimpleCache (V : Type) : SimpleCache V :=
  { data := mapMake (Iface V) }

namespace SimpleCache

variable {V : Type}

/-- The method `(*SimpleCache).Set`. -/
def Set (c : SimpleCache V) (key : String) (value : Iface V) : Error × SimpleCache V :=
  match validateKey key with
  | some err => (some err, c)
  | none => (none, { c with data := mapSet c.data key value })

/-- The method `(*SimpleCache).Get`. -/
def Get (c : SimpleCache V) (key : String) : (Iface V × Bool × Error) × SimpleCache V :=
  match validateKey key with
  | some err => ((none, false, some err), c)
  | none =>
    match mapGet c.data key with
    | some value => ((value, true, none), c)
    | none => ((none, false, none), c)

/-- The method `(*SimpleCache).Delete`. -/
def Delete (c : SimpleCache V) (key : String) : Error × SimpleCache V :=
  match validateKey key with
  | some err => (some err, c)
  | none => (none, { c with data := mapDelete c.data key })

end SimpleCache

/-! ## `TTLCache` -/

/-- The struct `cacheItem`. -/
structure cacheItem (V : Type) where
  value : Iface V
  expires : Int
deriving DecidableEq

/-- The struct `TTLCache`.  The field `done` records whether the channel
`done` has been closed; the mutex and the ticker handle are left out. -/
structure TTLCache (V : Type) where
  data : GoMap (cacheItem V)
  ttl : Int
  cleanupInterval : Int
  done : Bool
  closed : Bool
deriving DecidableEq

/-- The struct `TTLCacheConfig`. -/
structure TTLCacheConfig where
  TTL : Int
  CleanupInterval : Int
deriving DecidableEq

/-- The constant `time.Millisecond`, in nanoseconds. -/
def Millisecond : Int := 1000000

/-- The constructor `NewTTLCacheWithConfig`: `none` is the nil pointer. -/
def NewTTLCacheWithConfig (V : Type) (config : TTLCacheConfig) : Option (TTLCache V) × Error :=
  if config.TTL ≤ 0 then (none, some CacheError.ErrInvalidTTL)
  else
    let cleanupInterval := config.CleanupInterval
    let cleanupInterval :=
      if cleanupInterval ≤ 0 then
        let cleanupInterval := Int.tdiv config.TTL 2
        if cleanupInterval < 100 * Millisecond then 100 * Millisecond else cleanupInterval
      else cleanupInterval
    (some { data := mapMake (cacheItem V)
            ttl := config.TTL
            cleanupInterval := cleanupInterval
            done := false
            closed := false }, none)

/-- The constructor `NewTTLCache`. -/
def NewTTLCache (V : Type) (ttl : Int) : Option (TTLCache V) × Error :=
  NewTTLCacheWithConfig V { TTL := ttl, CleanupInterval := 0 }

namespace TTLCache

variable {V : Type}

/-- The method `(*TTLCache).Set`, executed at instant `now`. -/
def Set (c : TTLCache V) (key : String) (value : Iface V) (now : Int) : Error × TTLCache V :=
  if c.closed then (some CacheError.ErrCacheClosed, c)
  else
    match validateKey key with
    | some err => (some err, c)
    | none =>
      (none, { c with data := mapSet c.data key { value := value, expires := now + c.ttl } })

/-- The method `(*TTLCache).Get`, executed at instant `now`;
`time.Now().After(item.expires)` is `now > item.expires`. -/
def Get (c : TTLCache V) (key : String) (now : Int) : (Iface V × Bool × Error) × TTLCache V :=
  if c.closed then ((none, false, some CacheError.ErrCacheClosed), c)
  else
    match validateKey key with
    | some err => ((none, false, some err), c)
    | none =>
      match mapGet c.data key with
      | none => ((none, false, none), c)
      | some item =>
        if now > item.expires then ((none, false, none), c)
        else ((item.value, true, none), c)

/-- The method `(*TTLCache).Delete`. -/
def Delete (c : TTLCache V) (key : String) : Error × TTLCache V :=
  if c.closed then (some CacheError.ErrCacheClosed, c)
  else
    match validateKey key with
    | some err => (some err, c)
    | none => (none, { c with data := mapDelete c.data key })

/-- The body of the `range` loop of `performCleanup` for one entry. -/
def cleanupEntry (now : Int) (m : GoMap (cacheItem V)) (e : String × cacheItem V) :
    GoMap (cacheItem V) :=
  if now > e.2.expires then mapDelete m e.1 else m

/-- The method `(*TTLCache).performCleanup`, executed at instant `now`: the
loop visits the entries of the table and deletes the key of each expired one. -/
def performCleanup (c : TTLCache V) (now : Int) : TTLCache V :=
  { c with data := c.data.foldl (cleanupEntry now) c.data }

/-- The method `(*TTLCache).Close`. -/
def Close (c : TTLCache V) : Error × TTLCache V :=
  if c.closed then (none, c)
  else (none, { c with closed := true, done := true })

/-- The method `(*TTLCache).IsClosed`. -/
def IsClosed (c : TTLCache V) : Bool := c.closed

end TTLCache

/-! ## Sequences of calls -/

/-- One call on a `SimpleCache`. -/
inductive SimpleOp (V : Type) where
  | set (key : String) (value : Iface V)
  | get (key : String)
  | delete (key : String)
deriving DecidableEq

/-- One call on a `TTLCache`, or one pass of the background sweep; calls that
read the clock carry the instant at which they run. -/
inductive TTLOp (V : Type) where
  | set (key : String) (value : Iface V) (now : Int)
  | get (key : String) (now : Int)
  | delete (key : String)
  | sweep (now : Int)
  | close
deriving DecidableEq

namespace SimpleCache

variable {V : Type}

/-- The state after one call. -/
def step (c : SimpleCache V) : SimpleOp V → SimpleCache V
  | .set key value => (c.Set key value).2
  | .get key => (c.Get key).2
  | .delete key => (c.Delete key).2

/-- The state after a sequence of calls, first call first. -/
def run (c : SimpleCache V) (ops : List (SimpleOp V)) : SimpleCache V :=
  ops.foldl step c

/-- Apply `Set` to each pair in turn, collecting the returned errors. -/
def setAll (c : SimpleCache V) : List (String × Iface V) → List Error × SimpleCache V
  | [] => ([], c)
  | (key, value) :: rest =>
    let r := c.Set key value
    let rs := setAll r.2 rest
    (r.1 :: rs.1, rs.2)

end SimpleCache

namespace TTLCache

variable {V : Type}

/-- The state after one call or sweep pass. -/
def step (c : TTLCache V) : TTLOp V → TTLCache V
  | .set key value now => (c.Set key value now).2
  | .get key now => (c.Get key now).2
  | .delete key => (c.Delete key).2
  | .sweep now => c.performCleanup now
  | .close => c.Close.2

/-- The state after a sequence of calls and sweep passes, first one first. -/
def run (c : TTLCache V) (ops : List (TTLOp V)) : TTLCache V :=
  ops.foldl step c

end TTLCache

/-! ## Classifying calls -/

/-- A call that writes key `k`: `Set(k, _)` or `Delete(k)`. -/
def TTLOp.writes {V : Type} (k : String) : TTLOp V → Bool
  | .set key _ _ => decide (key = k)
  | .delete key => decide (key = k)
  | _ => false

/-- A `Set(k, _)` call. -/
def TTLOp.setsKey {V : Type} (k : String) : TTLOp V → Bool
  | .set key _ _ => decide (key = k)
  | _ => false

/-- The call `Close`. -/
def TTLOp.isClose {V : Type} : TTLOp V → Bool
  | .close => true
  | _ => false

/-- A sweep pass whose instant lies outside `[lo, hi]`. -/
def TTLOp.sweepOutside {V : Type} (lo hi : Int) : TTLOp V → Bool
  | .sweep now => decide (¬ (lo ≤ now ∧ now ≤ hi))
  | _ => false

/-- A `Set(k, _)` call on a `SimpleCache`. -/
def SimpleOp.setsKey {V : Type} (k : String) : SimpleOp V → Bool
  | .set key _ => decide (key = k)
  | _ => false

/-- Apply `(*SimpleCache).Delete` with the same key `n` times in a row,
collecting the returned errors. -/
def SimpleCache.deleteTimes {V : Type} (c : SimpleCache V) (key : String) :
    Nat → List Error × SimpleCache V
  | 0 => ([], c)
  | n + 1 =>
    let r := c.Delete key
    let rs := SimpleCache.deleteTimes r.2 key n
    (r.1 :: rs.1, rs.2)

/-- Apply `(*TTLCache).Delete` with the same key `n` times in a row,
collecting the returned errors. -/
def TTLCache.deleteTimes {V : Type} (c : TTLCache V) (key : String) :
    Nat → List Error × TTLCache V
  | 0 => ([], c)
  | n + 1 =>
    let r := c.Delete key
    let rs := TTLCache.deleteTimes r.2 key n
    (r.1 :: rs.1, rs.2)

/-! ## Sample states -/

/-- An open `TTLCache` with TTL 100 holding `"a"` with expiration instant 3. -/
def sampleOpen : TTLCache Nat :=
  { data := [("a", { value := some 1, expires := 3 })], ttl := 100,
    cleanupInterval := 50, done := false, closed := false }

/-- A closed `TTLCache`: `sampleOpen` after `Close`. -/
def sampleClosed : TTLCache Nat :=
  { data := [("a", { value := some 1, expires := 3 })], ttl := 100,
    cleanupInterval := 50, done := true, closed := true }

/-- The cache that `NewTTLCache` returns for a TTL of 50ms. -/
def sampleNew : TTLCache Nat :=
  { data := [], ttl := 50 * Millisecond, cleanupInterval := 100 * Millisecond,
    done := false, closed := false }

/-- A `SimpleCache` holding `"a"`. -/
def sampleSimple : SimpleCache Nat :=
  { data := [("a", some 1)] }

/-- Key `k` is bound to `item` and no other entry of the table carries `k`. -/
def TTLCache.Binds {V : Type} (c : TTLCache V) (k : String) (item : cacheItem V) : Prop :=
  mapGet c.data k = some item ∧ ∀ e ∈ c.data, e.1 = k → e.2 = item

/-! ## Close with the channel made explicit -/

/-- The builtin `close(ch)` on a channel whose state is `closed`: closing a
channel that is already closed is a run-time panic, `none`. -/
def closeChan (closed : Bool) : Option Bool :=
  if closed then none else some true

/-- The method `(*TTLCache).Close` with the panic of `close(c.done)` made
explicit: `none` is a panic. -/
def TTLCache.CloseChecked {V : Type} (c : TTLCache V) : Option (Error × TTLCache V) :=
  if c.closed then some (none, c)
  else
    match closeChan c.done with
    | none => none
    | some done => some (none, { c with closed := true, done := done })

/-- The channel `done` is closed only by `Close`, after it has set `closed`. -/
def TTLCache.DoneOnlyIfClosed {V : Type} (c : TTLCache V) : Prop :=
  c.done = true → c.closed = true

/-! ## Well-formed tables -/

/-- A Go map holds one entry per key. -/
def mapWF {T : Type} (m : GoMap T) : Prop :=
  (m.map Prod.fst).Nodup

/-- A `Set` or a `Delete` call. -/
def TTLOp.isSetOrDelete {V : Type} : TTLOp V → Bool
  | .set _ _ _ => true
  | .delete _ => true
  | _ => false

/-- Two caches show the same to every reader at an instant `s` or later: same
closed flag, same TTL, and under every key the same entry once entries that
expired before `s` are disregarded. -/
def TTLCache.AgreeFrom {V : Type} (s : Int) (c1 c2 : TTLCache V) : Prop :=
  c1.closed = c2.closed ∧ c1.ttl = c2.ttl ∧
    ∀ k, (mapGet c1.data k).filter (fun it => decide (s ≤ it.expires)) =
      (mapGet c2.data k).filter (fun it => decide (s ≤ it.expires))

/-- An open `TTLCache` holding three keys with expiration instants 3, 5 and 7. -/
def sampleThree : TTLCache Nat :=
  { data := [("a", { value := some 1, expires := 3 }),
             ("b", { value := some 2, expires := 5 }),
             ("c", { value := none, expires := 7 })],
    ttl := 100, cleanupInterval := 50, done := false, closed := false }

/-! ## The background sweeper -/

/-- The cache together with what the goroutine `cleanup` and its ticker add to
the state: whether a tick waits in the channel `ticker.C` (it buffers one),
whether `ticker.Stop()` has run, and whether the goroutine has returned. -/
structure Sweeper (V : Type) where
  cache : TTLCache V
  tickPending : Bool
  tickerStopped : Bool
  exited : Bool
deriving DecidableEq

/-- One step of the system made of the goroutine `cleanup`, the ticker and a
caller of `Close`. -/
inductive SweeperEvent where
  /-- The ticker sends on `ticker.C`. -/
  | tick
  /-- The `select` of `cleanup` takes `<-c.ticker.C` and runs `performCleanup`
  at instant `now`. -/
  | selectTick (now : Int)
  /-- The `select` of `cleanup` takes `<-c.done`, stops the ticker and returns. -/
  | selectDone
  /-- A caller runs `Close()` to its return. -/
  | close
deriving DecidableEq

namespace Sweeper

variable {V : Type}

/-- The system right after `NewTTLCacheWithConfig` returned cache `c`: the
ticker runs, no tick is pending, `go cache.cleanup()` has been started. -/
def start (c : TTLCache V) : Sweeper V :=
  { cache := c, tickPending := false, tickerStopped := false, exited := false }

/-- The state after one step, `none` when the step cannot be taken: a stopped
ticker sends nothing; `select` takes a case only when its channel is ready (a
pending tick, a closed `done`) and the goroutine is still in its loop; when both
channels are ready either case may be taken. -/
def fire (s : Sweeper V) : SweeperEvent → Option (Sweeper V)
  | .tick =>
    if s.tickerStopped then none else some { s with tickPending := true }
  | .selectTick now =>
    if !s.exited && s.tickPending then
      some { s with cache := s.cache.performCleanup now, tickPending := false }
    else none
  | .selectDone =>
    if !s.exited && s.cache.done then
      some { s with tickerStopped := true, exited := true }
    else none
  | .close => some { s with cache := s.cache.Close.2 }

/-- The state after a sequence of steps, `none` when one of them cannot be taken. -/
def exec (s : Sweeper V) : List SweeperEvent → Option (Sweeper V)
  | [] => some s
  | e :: es =>
    match s.fire e with
    | none => none
    | some s1 => exec s1 es

end Sweeper

/-- The system of `sampleClosed` after its sweeper has taken the signal. -/
def sampleStopped : Sweeper Nat :=
  { cache := sampleClosed, tickPending := false, tickerStopped := true, exited := true }

/-- No `performCleanup` pass starts after the first `Close()` has returned:
`afterClose` tells whether a `close` step has been seen. -/
def noSweepAfterClose : Bool → List SweeperEvent → Bool
  | _, [] => true
  | afterClose, .selectTick _ :: es => !afterClose && noSweepAfterClose afterClose es
  | _, .close :: es => noSweepAfterClose true es
  | afterClose, _ :: es => noSweepAfterClose afterClose es

/-! ## The parallel sum of `no_1/main.go`

A Go `int` is taken to be 64 bits wide, a slice `[]int` is a `List Int`, and a
run-time panic is `none`. -/

/-- Reduction of an integer to `int64`: two's-complement wraparound. -/
def wrapInt64 (x : Int) : Int :=
  (x + 9223372036854775808) % 18446744073709551616 - 9223372036854775808

/-- The struct `WorkerResult`. -/
structure WorkerResult where
  WorkerID : Int
  Sum : Int
  Count : Int
deriving DecidableEq

/-- The body of the `range` loop of `calculateEvenSum` on the pair
`(sum, count)`: `num%2` is the truncating remainder, `sum += int64(num)` is an
`int64` addition, and `count` cannot exceed the length of the slice. -/
def evenStep (acc : Int × Int) (num : Int) : Int × Int :=
  if Int.tmod num 2 = 0 then (wrapInt64 (acc.1 + num), acc.2 + 1) else acc

/-- The function `calculateEvenSum`: the `WorkerResult` it sends on `results`. -/
def calculateEvenSum (numbers : List Int) (workerID : Int) : WorkerResult :=
  { WorkerID := workerID
    Sum := (numbers.foldl evenStep (0, 0)).1
    Count := (numbers.foldl evenStep (0, 0)).2 }

/-- The slice expression `s[lo:hi]`, which panics unless `lo ≤ hi ≤ len(s)`. -/
def sliceExpr (s : List Int) (lo hi : Nat) : Option (List Int) :=
  if lo ≤ hi ∧ hi ≤ s.length then some ((s.drop lo).take (hi - lo)) else none

/-- The arguments of one `go calculateEvenSum(numbers[index:lastIndex], i+1, ...)`
statement, with the bounds of the slice. -/
structure WorkerCall where
  index : Nat
  lastIndex : Nat
  numbers : List Int
  workerID : Int
deriving DecidableEq

/-- The loop `for i := 0; i < numWorkers; i++` of `sumEvenNumbersConcurrently`,
with `remaining = numWorkers - i` iterations to go: the calls it spawns. -/
def spawnWorkers (numbers : List Int) (chunkSize sisaSize : Nat) :
    Nat → Nat → Nat → Option (List WorkerCall)
  | 0, _, _ => some []
  | remaining + 1, i, index =>
    let lastIndex := index + chunkSize
    let lastIndex := if i < sisaSize then lastIndex + 1 else lastIndex
    match sliceExpr numbers index lastIndex with
    | none => none
    | some chunk =>
      match spawnWorkers numbers chunkSize sisaSize remaining (i + 1) lastIndex with
      | none => none
      | some rest =>
        some ({ index := index, lastIndex := lastIndex, numbers := chunk,
                workerID := (i : Int) + 1 } :: rest)

/-- The spawning part of `sumEvenNumbersConcurrently`: the worker calls in the
order of the loop; `len(numbers) / numWorkers` panics when `numWorkers` is 0. -/
def sumEvenNumbersConcurrently (numbers : List Int) (numWorkers : Nat) :
    Option (List WorkerCall) :=
  if numWorkers = 0 then none
  else
    spawnWorkers numbers (numbers.length / numWorkers) (numbers.length % numWorkers)
      numWorkers 0 0

/-- What the workers send on the channel `results`, in the order of the calls. -/
def workerResults (calls : List WorkerCall) : List WorkerResult :=
  calls.map (fun c => calculateEvenSum c.numbers c.workerID)

/-- The collecting loop `for result := range results` of
`sumEvenNumbersConcurrently`, the results arriving in the order of `arrived`:
the final `totalSum`. -/
def collectTotal (arrived : List WorkerResult) : Int :=
  arrived.foldl (fun totalSum result => wrapInt64 (totalSum + result.Sum)) 0

/-- The sum of all even elements, as the specification words it. -/
def specEvenSum (numbers : List Int) : Int :=
  (numbers.filter (fun n => decide (n % 2 = 0))).sum

/-! ## Facts about Go maps -/

theorem mapGet_mapDelete_self {T : Type} (m : GoMap T) (k : String) :
    mapGet (mapDelete m k) k = none := by
  induction m with
  | nil => rfl
  | cons e rest ih =>
    obtain ⟨k', v⟩ := e
    by_cases h : k' = k
    · simpa [mapDelete, List.filter_cons, h] using ih
    · simpa [mapDelete, List.filter_cons, h, mapGet] using ih

theorem mapGet_mapDelete_ne {T : Type} (m : GoMap T) {k k' : String} (h : k' ≠ k) :
    mapGet (mapDelete m k') k = mapGet m k := by
  induction m with
  | nil => rfl
  | cons e rest ih =>
    obtain ⟨k'', v⟩ := e
    by_cases h1 : k'' = k'
    · subst h1
      simpa [mapDelete, List.filter_cons, mapGet, h] using ih
    · by_cases h2 : k'' = k
      · subst h2
        simp [mapDelete, List.filter_cons, mapGet, h1]
      · simpa [mapDelete, List.filter_cons, mapGet, h1, h2] using ih

theorem mapGet_mapSet_self {T : Type} (m : GoMap T) (k : String) (v : T) :
    mapGet (mapSet m k v) k = some v := by
  simp [mapSet, mapGet]

theorem mapGet_mapSet_ne {T : Type} (m : GoMap T) {k k' : String} (v : T) (h : k' ≠ k) :
    mapGet (mapSet m k' v) k = mapGet m k := by
  simp [mapSet, mapGet, h, mapGet_mapDelete_ne m h]

theorem mem_mapDelete {T : Type} {m : GoMap T} {k : String} {e : String × T}
    (h : e ∈ mapDelete m k) : e ∈ m ∧ e.1 ≠ k := by
  simpa [mapDelete, List.mem_filter] using h

theorem mapGet_eq_none_iff {T : Type} (m : GoMap T) (k : String) :
    mapGet m k = none ↔ ∀ e ∈ m, e.1 ≠ k := by
  induction m with
  | nil => simp [mapGet]
  | cons e rest ih =>
    obtain ⟨k', v⟩ := e
    by_cases h : k' = k
    · simp [mapGet, h]
    · simp [mapGet, h, ih]

theorem mapDelete_of_absent {T : Type} (m : GoMap T) (k : String) (h : mapGet m k = none) :
    mapDelete m k = m := by
  rw [mapGet_eq_none_iff] at h
  simp only [mapDelete, List.filter_eq_self]
  intro e he
  simpa using h e he

theorem mapDelete_mapDelete {T : Type} (m : GoMap T) (k : String) :
    mapDelete (mapDelete m k) k = mapDelete m k :=
  mapDelete_of_absent _ _ (mapGet_mapDelete_self m k)

/-- The entry found by `mapGet` is in the list. -/
theorem mem_of_mapGet {T : Type} {m : GoMap T} {k : String} {v : T}
    (h : mapGet m k = some v) : (k, v) ∈ m := by
  induction m with
  | nil => simp [mapGet] at h
  | cons e rest ih =>
    obtain ⟨k', v'⟩ := e
    by_cases hk : k' = k
    · simp [mapGet, hk] at h
      simp [hk, h]
    · simp [mapGet, hk] at h
      exact List.mem_cons_of_mem _ (ih h)

/-! ## Facts about the sweep loop -/

theorem mapGet_cleanupEntry {V : Type} (now : Int) (m : GoMap (cacheItem V))
    (e : String × cacheItem V) (k : String) :
    mapGet (TTLCache.cleanupEntry now m e) k =
      if now > e.2.expires ∧ e.1 = k then none else mapGet m k := by
  unfold TTLCache.cleanupEntry
  by_cases h1 : now > e.2.expires
  · by_cases h2 : e.1 = k
    · subst h2
      simp [h1, mapGet_mapDelete_self]
    · simp [h1, h2, mapGet_mapDelete_ne m h2]
  · simp [h1]

/-- What the sweep loop leaves under key `k`: nothing when some visited entry
with that key is expired, otherwise what was there. -/
theorem mapGet_foldl_cleanupEntry {V : Type} (now : Int) (l acc : GoMap (cacheItem V))
    (k : String) :
    mapGet (l.foldl (TTLCache.cleanupEntry now) acc) k =
      if ∃ e ∈ l, now > e.2.expires ∧ e.1 = k then none else mapGet acc k := by
  induction l generalizing acc with
  | nil => simp
  | cons e rest ih =>
    rw [List.foldl_cons, ih, mapGet_cleanupEntry]
    by_cases h1 : ∃ e ∈ rest, now > e.2.expires ∧ e.1 = k
    · have h2 : ∃ x ∈ e :: rest, now > x.2.expires ∧ x.1 = k := by
        obtain ⟨x, hx, hp⟩ := h1
        exact ⟨x, List.mem_cons_of_mem _ hx, hp⟩
      rw [if_pos h1, if_pos h2]
    · rw [if_neg h1]
      by_cases h3 : now > e.2.expires ∧ e.1 = k
      · have h2 : ∃ x ∈ e :: rest, now > x.2.expires ∧ x.1 = k :=
          ⟨e, List.mem_cons_self _ _, h3⟩
        rw [if_pos h3, if_pos h2]
      · have h2 : ¬ ∃ x ∈ e :: rest, now > x.2.expires ∧ x.1 = k := by
          rintro ⟨x, hx, hp⟩
          rcases List.mem_cons.1 hx with rfl | hx
          · exact h3 hp
          · exact h1 ⟨x, hx, hp⟩
        rw [if_neg h3, if_neg h2]

theorem mem_foldl_cleanupEntry {V : Type} (now : Int) (l acc : GoMap (cacheItem V))
    {x : String × cacheItem V} (h : x ∈ l.foldl (TTLCache.cleanupEntry now) acc) : x ∈ acc := by
  induction l generalizing acc with
  | nil => simpa using h
  | cons e rest ih =>
    rw [List.foldl_cons] at h
    have h1 := ih _ h
    unfold TTLCache.cleanupEntry at h1
    by_cases h2 : now > e.2.expires
    · rw [if_pos h2] at h1
      exact (mem_mapDelete h1).1
    · rw [if_neg h2] at h1
      exact h1

/-! ## Facts about single calls -/

theorem validateKey_of_ne {k : String} (hk : k ≠ "") : validateKey k = none := by
  simp [validateKey, hk]

theorem validateKey_empty : validateKey "" = some CacheError.ErrInvalidKey := by
  simp [validateKey]

namespace TTLCache

variable {V : Type}

theorem Set_of_open (c : TTLCache V) {k : String} (v : Iface V) (now : Int)
    (hopen : c.closed = false) (hk : k ≠ "") :
    c.Set k v now =
      (none, { c with data := mapSet c.data k { value := v, expires := now + c.ttl } }) := by
  simp [Set, hopen, validateKey_of_ne hk]

theorem Delete_of_open (c : TTLCache V) {k : String} (hopen : c.closed = false) (hk : k ≠ "") :
    c.Delete k = (none, { c with data := mapDelete c.data k }) := by
  simp [Delete, hopen, validateKey_of_ne hk]

theorem Get_snd (c : TTLCache V) (k : String) (now : Int) : (c.Get k now).2 = c := by
  unfold Get
  split
  · rfl
  · split
    · rfl
    · split
      · rfl
      · split <;> rfl

theorem Set_data (c : TTLCache V) (k : String) (v : Iface V) (now : Int) :
    (c.Set k v now).2.data = c.data ∨
      (k ≠ "" ∧ (c.Set k v now).2.data =
        mapSet c.data k { value := v, expires := now + c.ttl }) := by
  unfold Set
  split
  · exact Or.inl rfl
  · by_cases hk : k = ""
    · subst hk
      simp [validateKey_empty]
    · simp [validateKey_of_ne hk, hk]

theorem Delete_data (c : TTLCache V) (k : String) :
    (c.Delete k).2.data = c.data ∨ (c.Delete k).2.data = mapDelete c.data k := by
  unfold Delete
  split
  · exact Or.inl rfl
  · split
    · exact Or.inl rfl
    · exact Or.inr rfl

theorem Get_of_bound (c : TTLCache V) {k : String} {item : cacheItem V} (now : Int)
    (hopen : c.closed = false) (hk : k ≠ "") (hget : mapGet c.data k = some item) :
    (c.Get k now).1 =
      if now > item.expires then (none, false, none) else (item.value, true, none) := by
  simp only [Get, hopen, validateKey_of_ne hk, hget]
  by_cases h : now > item.expires
  · simp [h]
  · simp [h]

theorem Get_of_absent (c : TTLCache V) {k : String} (now : Int)
    (hopen : c.closed = false) (hk : k ≠ "") (hget : mapGet c.data k = none) :
    (c.Get k now).1 = (none, false, none) := by
  simp [Get, hopen, validateKey_of_ne hk, hget]

/-! ## Facts about sequences of calls -/

theorem step_ttl (c : TTLCache V) (op : TTLOp V) : (c.step op).ttl = c.ttl := by
  cases op with
  | set key value now => simp only [step, Set]; split; rfl; split <;> rfl
  | get key now => simp only [step, Get_snd]
  | delete key => simp only [step, Delete]; split; rfl; split <;> rfl
  | sweep now => rfl
  | close => simp only [step, Close]; split <;> rfl

theorem step_cleanupInterval (c : TTLCache V) (op : TTLOp V) :
    (c.step op).cleanupInterval = c.cleanupInterval := by
  cases op with
  | set key value now => simp only [step, Set]; split; rfl; split <;> rfl
  | get key now => simp only [step, Get_snd]
  | delete key => simp only [step, Delete]; split; rfl; split <;> rfl
  | sweep now => rfl
  | close => simp only [step, Close]; split <;> rfl

theorem step_closed_of_not_close (c : TTLCache V) {op : TTLOp V}
    (h : TTLOp.isClose op = false) : (c.step op).closed = c.closed := by
  cases op with
  | set key value now => simp only [step, Set]; split; rfl; split <;> rfl
  | get key now => simp only [step, Get_snd]
  | delete key => simp only [step, Delete]; split; rfl; split <;> rfl
  | sweep now => rfl
  | close => simp [TTLOp.isClose] at h

theorem step_closed_of_closed (c : TTLCache V) (op : TTLOp V) (h : c.closed = true) :
    (c.step op).closed = true := by
  cases op with
  | set key value now => simp [step, Set, h]
  | get key now => simp [step, Get_snd, h]
  | delete key => simp [step, Delete, h]
  | sweep now => exact h
  | close => simp [step, Close, h]

theorem run_nil (c : TTLCache V) : c.run [] = c := rfl

theorem run_cons (c : TTLCache V) (op : TTLOp V) (ops : List (TTLOp V)) :
    c.run (op :: ops) = (c.step op).run ops := rfl

theorem run_ttl (c : TTLCache V) (ops : List (TTLOp V)) : (c.run ops).ttl = c.ttl := by
  induction ops generalizing c with
  | nil => rfl
  | cons op ops ih => rw [run_cons, ih, step_ttl]

theorem run_cleanupInterval (c : TTLCache V) (ops : List (TTLOp V)) :
    (c.run ops).cleanupInterval = c.cleanupInterval := by
  induction ops generalizing c with
  | nil => rfl
  | cons op ops ih => rw [run_cons, ih, step_cleanupInterval]

theorem run_closed_of_closed (c : TTLCache V) (ops : List (TTLOp V)) (h : c.closed = true) :
    (c.run ops).closed = true := by
  induction ops generalizing c with
  | nil => exact h
  | cons op ops ih => rw [run_cons]; exact ih _ (step_closed_of_closed c op h)

theorem run_closed_of_not_close (c : TTLCache V) (ops : List (TTLOp V))
    (h : ∀ op ∈ ops, TTLOp.isClose op = false) : (c.run ops).closed = c.closed := by
  induction ops generalizing c with
  | nil => rfl
  | cons op ops ih =>
    rw [run_cons, ih _ (fun o ho => h o (List.mem_cons_of_mem _ ho)),
      step_closed_of_not_close c (h op (List.mem_cons_self _ _))]

/-! ## The binding of one key along a sequence of calls -/

theorem Binds_Set (c : TTLCache V) {k : String} (v : Iface V) (now : Int)
    (hopen : c.closed = false) (hk : k ≠ "") :
    (c.Set k v now).2.Binds k { value := v, expires := now + c.ttl } := by
  rw [Set_of_open c v now hopen hk]
  refine ⟨mapGet_mapSet_self _ _ _, ?_⟩
  intro e he hek
  rcases List.mem_cons.1 he with rfl | he
  · rfl
  · exact absurd hek (mem_mapDelete he).2

theorem step_Binds (c : TTLCache V) {k : String} {item : cacheItem V} {op : TTLOp V}
    {lo hi : Int} (hb : c.Binds k item) (hw : TTLOp.writes k op = false)
    (hs : TTLOp.sweepOutside lo hi op = false) (hhi : hi ≤ item.expires) :
    (c.step op).Binds k item := by
  obtain ⟨hget, honly⟩ := hb
  cases op with
  | set key value now =>
    have hne : key ≠ k := by simpa [TTLOp.writes] using hw
    rcases Set_data c key value now with h | ⟨_, h⟩
    · exact ⟨by simp only [step, h, hget], by simp only [step, h]; exact honly⟩
    · refine ⟨by simp only [step, h, mapGet_mapSet_ne _ _ hne, hget], ?_⟩
      simp only [step, h]
      intro e he hek
      rcases List.mem_cons.1 he with rfl | he
      · exact absurd hek hne
      · exact honly e (mem_mapDelete he).1 hek
  | get key now => simpa only [step, Get_snd] using And.intro hget honly
  | delete key =>
    have hne : key ≠ k := by simpa [TTLOp.writes] using hw
    rcases Delete_data c key with h | h
    · exact ⟨by simp only [step, h, hget], by simp only [step, h]; exact honly⟩
    · refine ⟨by simp only [step, h, mapGet_mapDelete_ne _ hne, hget], ?_⟩
      simp only [step, h]
      intro e he hek
      exact honly e (mem_mapDelete he).1 hek
  | sweep now =>
    have hnow : now ≤ hi := by
      have := hs
      simp only [TTLOp.sweepOutside, decide_eq_false_iff_not, not_not] at this
      exact this.2
    have hno : ¬ ∃ e ∈ c.data, now > e.2.expires ∧ e.1 = k := by
      rintro ⟨e, he, hexp, hek⟩
      rw [honly e he hek] at hexp
      omega
    refine ⟨?_, ?_⟩
    · show mapGet (c.data.foldl (cleanupEntry now) c.data) k = some item
      rw [mapGet_foldl_cleanupEntry, if_neg hno, hget]
    · intro e he hek
      exact honly e (mem_foldl_cleanupEntry now c.data c.data he) hek
  | close =>
    have h : (c.step TTLOp.close).data = c.data := by
      simp only [step, Close]; split <;> rfl
    exact ⟨by rw [h, hget], by rw [h]; exact honly⟩

theorem run_Binds (c : TTLCache V) {k : String} {item : cacheItem V} (ops : List (TTLOp V))
    {lo hi : Int} (hb : c.Binds k item)
    (hops : ∀ op ∈ ops, TTLOp.writes k op = false ∧ TTLOp.sweepOutside lo hi op = false)
    (hhi : hi ≤ item.expires) :
    (c.run ops).Binds k item := by
  induction ops generalizing c with
  | nil => exact hb
  | cons op ops ih =>
    rw [run_cons]
    have h := hops op (List.mem_cons_self _ _)
    exact ih _ (step_Binds c hb h.1 h.2 hhi) (fun o ho => hops o (List.mem_cons_of_mem _ ho))

end TTLCache

/-- After a `Set(k, v)` at `t0` on an open cache and calls that neither write `k`
nor close the cache, with sweep passes only at instants in `[lo, t1]`, a
`Get(k)` at `t1 ≤ t0 + ttl` finds `v`. -/
theorem TTLCache.Get_after_Set_run {V : Type} (c : TTLCache V) (k : String)
    (v : Iface V) (t0 lo t1 : Int) (ops : List (TTLOp V))
    (hopen : c.closed = false) (hk : k ≠ "") (h1 : t1 ≤ t0 + c.ttl)
    (hops : ∀ op ∈ ops, TTLOp.writes k op = false ∧ TTLOp.isClose op = false ∧
      TTLOp.sweepOutside lo t1 op = false) :
    (c.Set k v t0).1 = none ∧
      (((c.Set k v t0).2.run ops).Get k t1).1 = (v, true, none) := by
  have hset : (c.Set k v t0).1 = none := by rw [TTLCache.Set_of_open c v t0 hopen hk]
  have hopen1 : (c.Set k v t0).2.closed = false := by
    rw [TTLCache.Set_of_open c v t0 hopen hk]; exact hopen
  have hb := TTLCache.run_Binds (c.Set k v t0).2 ops (TTLCache.Binds_Set c v t0 hopen hk)
    (fun op hop => ⟨(hops op hop).1, (hops op hop).2.2⟩) h1
  have hopen2 : ((c.Set k v t0).2.run ops).closed = false := by
    rw [TTLCache.run_closed_of_not_close _ ops (fun op hop => (hops op hop).2.1)]
    exact hopen1
  refine ⟨hset, ?_⟩
  rw [TTLCache.Get_of_bound _ t1 hopen2 hk hb.1]
  have : ¬ t1 > t0 + c.ttl := by omega
  simp [this]

/-! ## Set then Get within the TTL -/

/-- Claim C1: on an open `TTLCache`, for a non-empty key `k`, `Set(k, v)` at instant
`t0` returns nil, and a `Get(k)` at an instant `t1` with `t0 ≤ t1 < t0 + ttl`
returns `(v, true, nil)`, whatever calls on other keys and sweep passes at
instants in `[t0, t1]` ran in between, as long as none of them is a `Set(k, _)`,
a `Delete(k)` or a `Close`. -/
theorem TTLCache.get_after_set_within_ttl {V : Type} (c : TTLCache V) (k : String)
    (v : Iface V) (t0 t1 : Int) (ops : List (TTLOp V))
    (hopen : c.closed = false) (hk : k ≠ "")
    (_h01 : t0 ≤ t1) (h1 : t1 < t0 + c.ttl)
    (hops : ∀ op ∈ ops, TTLOp.writes k op = false ∧ TTLOp.isClose op = false ∧
      TTLOp.sweepOutside t0 t1 op = false) :
    (c.Set k v t0).1 = none ∧
      (((c.Set k v t0).2.run ops).Get k t1).1 = (v, true, none) :=
  TTLCache.Get_after_Set_run c k v t0 t0 t1 ops hopen hk (le_of_lt h1) hops

/-- Witness for claim C1: TTL 100, `Set("a", 7)` at instant 0, then a `Set` and a
`Delete` on other keys, a `Get` and a sweep pass at instant 50, then `Get("a")`
at instant 99. -/
theorem TTLCache.get_after_set_within_ttl_witness :
    (sampleOpen.Set "a" (some 7) 0).1 = none ∧
      (((sampleOpen.Set "a" (some 7) 0).2.run
        [TTLOp.set "b" (some 2) 10, TTLOp.get "a" 20, TTLOp.sweep 50, TTLOp.delete "c"]).Get
          "a" 99).1 = (some 7, true, none) :=
  TTLCache.get_after_set_within_ttl sampleOpen "a" (some 7) 0 99
    [TTLOp.set "b" (some 2) 10, TTLOp.get "a" 20, TTLOp.sweep 50, TTLOp.delete "c"]
    rfl (by decide) (by decide) (by decide) (by decide)

/-! ## Get on an expired entry -/

/-- Claim C2, as the code has it: on an open `TTLCache`, for a non-empty key `k` bound
to an entry whose expiration instant is strictly before `now`, `Get(k)` at `now`
returns `(nil, false, nil)`, which is also what `Get(k)` returns on every open
cache whose table has no entry for `k`. -/
theorem TTLCache.get_expired_reports_absent {V : Type} (c : TTLCache V) (k : String)
    (item : cacheItem V) (now : Int)
    (hopen : c.closed = false) (hk : k ≠ "")
    (hget : mapGet c.data k = some item) (hnow : now > item.expires) :
    (c.Get k now).1 = (none, false, none) ∧
      ∀ c' : TTLCache V, c'.closed = false → mapGet c'.data k = none →
        (c'.Get k now).1 = (c.Get k now).1 := by
  have h : (c.Get k now).1 = (none, false, none) := by
    rw [TTLCache.Get_of_bound c now hopen hk hget, if_pos hnow]
  refine ⟨h, ?_⟩
  intro c' hopen' habs
  rw [h, TTLCache.Get_of_absent c' now hopen' hk habs]

/-- Witness for claim C2: `"a"` expires at instant 3 and is read at instant 4. -/
theorem TTLCache.get_expired_reports_absent_witness :
    (sampleOpen.Get "a" 4).1 = (none, false, none) ∧
      ∀ c' : TTLCache Nat, c'.closed = false → mapGet c'.data "a" = none →
        (c'.Get "a" 4).1 = (sampleOpen.Get "a" 4).1 :=
  TTLCache.get_expired_reports_absent sampleOpen "a" { value := some 1, expires := 3 } 4
    rfl (by decide) rfl (by decide)

/-- Counterexample to claim C2 as stated: `"a"` is in the table of an open cache with
expiration instant 3, `Get("a")` runs at instant 3, so `now >= expiresAt`, and
it returns the value with `found = true`. -/
theorem TTLCache.get_at_expiry_instant_found :
    sampleOpen.closed = false ∧
      mapGet sampleOpen.data "a" = some { value := some 1, expires := 3 } ∧
      (3 : Int) ≥ 3 ∧
      (sampleOpen.Get "a" 3).1 = (some 1, true, none) ∧
      (sampleOpen.Get "a" 3).1.2.1 ≠ false := by
  decide

/-! ## A second Set restarts the TTL -/

/-- Claim C3: on an open `TTLCache`, for a non-empty key `k`, after `Set(k, v1)` at `t0`
and `Set(k, v2)` at `t1` with `t0 ≤ t1 < t0 + ttl`, both returning nil, the
table binds `k` to `(v2, t1 + ttl)`, and `Get(k)` at any `t2` with
`t1 ≤ t2 < t1 + ttl` returns `(v2, true, nil)`; `t2` may lie after `t0 + ttl`,
and sweep passes at instants in `[t0, t1]` between the two `Set` calls and at
instants in `[t1, t2]` after the second (and calls on other keys) may run. -/
theorem TTLCache.set_again_restarts_ttl {V : Type} (c : TTLCache V) (k : String)
    (v1 v2 : Iface V) (t0 t1 t2 : Int) (ops1 ops2 : List (TTLOp V))
    (hopen : c.closed = false) (hk : k ≠ "")
    (_h01 : t0 ≤ t1) (_h1 : t1 < t0 + c.ttl) (_h12 : t1 ≤ t2) (h2 : t2 < t1 + c.ttl)
    (hops1 : ∀ op ∈ ops1, TTLOp.writes k op = false ∧ TTLOp.isClose op = false ∧
      TTLOp.sweepOutside t0 t1 op = false)
    (hops2 : ∀ op ∈ ops2, TTLOp.writes k op = false ∧ TTLOp.isClose op = false ∧
      TTLOp.sweepOutside t1 t2 op = false) :
    (c.Set k v1 t0).1 = none ∧
      (((c.Set k v1 t0).2.run ops1).Set k v2 t1).1 = none ∧
      mapGet (((c.Set k v1 t0).2.run ops1).Set k v2 t1).2.data k =
        some { value := v2, expires := t1 + c.ttl } ∧
      (((((c.Set k v1 t0).2.run ops1).Set k v2 t1).2.run ops2).Get k t2).1 =
        (v2, true, none) := by
  have hset1 : (c.Set k v1 t0).1 = none := by rw [TTLCache.Set_of_open c v1 t0 hopen hk]
  have hopen1 : ((c.Set k v1 t0).2.run ops1).closed = false := by
    rw [TTLCache.run_closed_of_not_close _ ops1 (fun op hop => (hops1 op hop).2.1),
      TTLCache.Set_of_open c v1 t0 hopen hk]
    exact hopen
  have httl1 : ((c.Set k v1 t0).2.run ops1).ttl = c.ttl := by
    rw [TTLCache.run_ttl, TTLCache.Set_of_open c v1 t0 hopen hk]
  have h := TTLCache.Get_after_Set_run ((c.Set k v1 t0).2.run ops1) k v2 t1 t1 t2 ops2
    hopen1 hk (by rw [httl1]; exact le_of_lt h2) hops2
  have hb := TTLCache.Binds_Set ((c.Set k v1 t0).2.run ops1) v2 t1 hopen1 hk
  rw [httl1] at hb
  exact ⟨hset1, h.1, hb.1, h.2⟩

/-- Witness for claim C3: TTL 100, `Set("a", 7)` at 0, a sweep pass at 30,
`Set("a", 8)` at 60, sweep passes at 100 and 150, `Get("a")` at 150, which is
after the first expiration instant 100. -/
theorem TTLCache.set_again_restarts_ttl_witness :
    (sampleOpen.Set "a" (some 7) 0).1 = none ∧
      (((sampleOpen.Set "a" (some 7) 0).2.run [TTLOp.sweep 30]).Set "a" (some 8) 60).1 = none ∧
      mapGet (((sampleOpen.Set "a" (some 7) 0).2.run [TTLOp.sweep 30]).Set
        "a" (some 8) 60).2.data "a" = some { value := some 8, expires := 60 + sampleOpen.ttl } ∧
      (((((sampleOpen.Set "a" (some 7) 0).2.run [TTLOp.sweep 30]).Set "a" (some 8) 60).2.run
        [TTLOp.sweep 100, TTLOp.set "b" none 120, TTLOp.sweep 150]).Get "a" 150).1 =
        (some 8, true, none) :=
  TTLCache.set_again_restarts_ttl sampleOpen "a" (some 7) (some 8) 0 60 150
    [TTLOp.sweep 30] [TTLOp.sweep 100, TTLOp.set "b" none 120, TTLOp.sweep 150]
    rfl (by decide) (by decide) (by decide) (by decide) (by decide) (by decide) (by decide)

/-! ## Writers on distinct keys of a `SimpleCache` -/

namespace SimpleCache

variable {V : Type}

theorem Set_of_ne (c : SimpleCache V) {k : String} (v : Iface V) (hk : k ≠ "") :
    c.Set k v = (none, { c with data := mapSet c.data k v }) := by
  simp [Set, validateKey_of_ne hk]

theorem Delete_of_ne (c : SimpleCache V) {k : String} (hk : k ≠ "") :
    c.Delete k = (none, { c with data := mapDelete c.data k }) := by
  simp [Delete, validateKey_of_ne hk]

theorem simple_Get_snd (c : SimpleCache V) (k : String) : (c.Get k).2 = c := by
  unfold Get
  split
  · rfl
  · split <;> rfl

theorem simple_Get_of_bound (c : SimpleCache V) {k : String} {v : Iface V} (hk : k ≠ "")
    (hget : mapGet c.data k = some v) : (c.Get k).1 = (v, true, none) := by
  simp [Get, validateKey_of_ne hk, hget]

theorem simple_Get_of_absent (c : SimpleCache V) {k : String} (hk : k ≠ "")
    (hget : mapGet c.data k = none) : (c.Get k).1 = (none, false, none) := by
  simp [Get, validateKey_of_ne hk, hget]

theorem setAll_cons (c : SimpleCache V) (k : String) (v : Iface V)
    (rest : List (String × Iface V)) :
    c.setAll ((k, v) :: rest) =
      ((c.Set k v).1 :: ((c.Set k v).2.setAll rest).1, ((c.Set k v).2.setAll rest).2) := rfl

theorem setAll_errors (c : SimpleCache V) (l : List (String × Iface V))
    (hne : ∀ kv ∈ l, kv.1 ≠ "") :
    (c.setAll l).1 = List.replicate l.length none := by
  induction l generalizing c with
  | nil => rfl
  | cons kv rest ih =>
    obtain ⟨k, v⟩ := kv
    have hk : k ≠ "" := hne (k, v) (List.mem_cons_self _ _)
    rw [setAll_cons, ih _ (fun x hx => hne x (List.mem_cons_of_mem _ hx)), Set_of_ne c v hk]
    rfl

theorem setAll_mapGet (c : SimpleCache V) (l : List (String × Iface V))
    (hne : ∀ kv ∈ l, kv.1 ≠ "") (hnodup : (l.map Prod.fst).Nodup) :
    (∀ kv ∈ l, mapGet (c.setAll l).2.data kv.1 = some kv.2) ∧
      (∀ k, k ∉ l.map Prod.fst → mapGet (c.setAll l).2.data k = mapGet c.data k) := by
  induction l generalizing c with
  | nil => exact ⟨by simp, fun k _ => rfl⟩
  | cons kv rest ih =>
    obtain ⟨k, v⟩ := kv
    have hk : k ≠ "" := hne (k, v) (List.mem_cons_self _ _)
    rw [List.map_cons, List.nodup_cons] at hnodup
    have hrest := ih (c.Set k v).2 (fun x hx => hne x (List.mem_cons_of_mem _ hx)) hnodup.2
    have hdata : (c.Set k v).2.data = mapSet c.data k v := by rw [Set_of_ne c v hk]
    rw [setAll_cons]
    refine ⟨?_, ?_⟩
    · intro x hx
      rcases List.mem_cons.1 hx with rfl | hx
      · show mapGet ((c.Set k v).2.setAll rest).2.data k = some v
        rw [hrest.2 k hnodup.1, hdata, mapGet_mapSet_self]
      · exact hrest.1 x hx
    · intro k' hk'
      rw [List.map_cons, List.mem_cons, not_or] at hk'
      show mapGet ((c.Set k v).2.setAll rest).2.data k' = mapGet c.data k'
      rw [hrest.2 k' hk'.2, hdata, mapGet_mapSet_ne _ _ (Ne.symm hk'.1)]

end SimpleCache

/-- Claim C4: for pairs `kvs` with pairwise distinct non-empty keys, applied to a new
`SimpleCache` by `Set` in any order `order` (a permutation of `kvs`), every
`Set` returns nil, and afterwards `Get` of each key of `kvs` returns the value
written for it with `found = true` and a nil error, while `Get` of a non-empty
key that was never set returns `(nil, false, nil)`; a `Get` leaves the state
as it was, so the reads may come in any order. -/
theorem SimpleCache.no_lost_updates {V : Type} (kvs order : List (String × Iface V))
    (hperm : order.Perm kvs)
    (hnodup : (kvs.map Prod.fst).Nodup) (hne : ∀ kv ∈ kvs, kv.1 ≠ "") :
    ((NewSimpleCache V).setAll order).1 = List.replicate kvs.length none ∧
      (∀ kv ∈ kvs, (((NewSimpleCache V).setAll order).2.Get kv.1).1 = (kv.2, true, none)) ∧
      (∀ k, k ≠ "" → k ∉ kvs.map Prod.fst →
        (((NewSimpleCache V).setAll order).2.Get k).1 = (none, false, none)) ∧
      (∀ k, (((NewSimpleCache V).setAll order).2.Get k).2 =
        ((NewSimpleCache V).setAll order).2) := by
  have hne' : ∀ kv ∈ order, kv.1 ≠ "" := fun kv h => hne kv (hperm.mem_iff.1 h)
  have hnodup' : (order.map Prod.fst).Nodup := (hperm.map Prod.fst).nodup_iff.2 hnodup
  have h := SimpleCache.setAll_mapGet (NewSimpleCache V) order hne' hnodup'
  refine ⟨?_, ?_, ?_, fun k => SimpleCache.simple_Get_snd _ k⟩
  · rw [SimpleCache.setAll_errors _ order hne', hperm.length_eq]
  · intro kv hkv
    exact SimpleCache.simple_Get_of_bound _ (hne kv hkv) (h.1 kv (hperm.mem_iff.2 hkv))
  · intro k hk hnot
    have hnot' : k ∉ order.map Prod.fst := fun hm => hnot ((hperm.map Prod.fst).mem_iff.1 hm)
    exact SimpleCache.simple_Get_of_absent _ hk (by rw [h.2 k hnot']; rfl)

/-- Witness for claim C4: three pairs written in the order third, first, second. -/
theorem SimpleCache.no_lost_updates_witness :
    ((NewSimpleCache Nat).setAll [("c", some 3), ("a", some 1), ("b", none)]).1 =
        List.replicate [("a", some 1), ("b", (none : Iface Nat)), ("c", some 3)].length none ∧
      (∀ kv ∈ [("a", some 1), ("b", (none : Iface Nat)), ("c", some 3)],
        (((NewSimpleCache Nat).setAll [("c", some 3), ("a", some 1), ("b", none)]).2.Get
          kv.1).1 = (kv.2, true, none)) ∧
      (∀ k, k ≠ "" →
        k ∉ [("a", some 1), ("b", (none : Iface Nat)), ("c", some 3)].map Prod.fst →
        (((NewSimpleCache Nat).setAll [("c", some 3), ("a", some 1), ("b", none)]).2.Get
          k).1 = (none, false, none)) ∧
      (∀ k, (((NewSimpleCache Nat).setAll [("c", some 3), ("a", some 1), ("b", none)]).2.Get
          k).2 = ((NewSimpleCache Nat).setAll [("c", some 3), ("a", some 1), ("b", none)]).2) :=
  SimpleCache.no_lost_updates [("a", some 1), ("b", none), ("c", some 3)]
    [("c", some 3), ("a", some 1), ("b", none)] (by decide) (by decide) (by decide)

/-! ## The empty key -/

/-- Claim C5, as the code has it: on a `SimpleCache` in any state and on every open
`TTLCache`, each of `Set("", v)`, `Get("")` and `Delete("")` fails with
`ErrInvalidKey`, `Get` returning `(nil, false, ErrInvalidKey)`. -/
theorem empty_key_rejected {V : Type} (cs : SimpleCache V) (ct : TTLCache V) (v : Iface V)
    (now : Int) (hopen : ct.closed = false) :
    (cs.Set "" v).1 = some CacheError.ErrInvalidKey ∧
      (cs.Get "").1 = (none, false, some CacheError.ErrInvalidKey) ∧
      (cs.Delete "").1 = some CacheError.ErrInvalidKey ∧
      (ct.Set "" v now).1 = some CacheError.ErrInvalidKey ∧
      (ct.Get "" now).1 = (none, false, some CacheError.ErrInvalidKey) ∧
      (ct.Delete "").1 = some CacheError.ErrInvalidKey := by
  simp [SimpleCache.Set, SimpleCache.Get, SimpleCache.Delete, TTLCache.Set, TTLCache.Get,
    TTLCache.Delete, validateKey_empty, hopen]

/-- Witness for claim C5: a `SimpleCache` and an open `TTLCache`, each holding `"a"`. -/
theorem empty_key_rejected_witness :
    (sampleSimple.Set "" (some 5)).1 = some CacheError.ErrInvalidKey ∧
      (sampleSimple.Get "").1 = (none, false, some CacheError.ErrInvalidKey) ∧
      (sampleSimple.Delete "").1 = some CacheError.ErrInvalidKey ∧
      (sampleOpen.Set "" (some 5) 0).1 = some CacheError.ErrInvalidKey ∧
      (sampleOpen.Get "" 0).1 = (none, false, some CacheError.ErrInvalidKey) ∧
      (sampleOpen.Delete "").1 = some CacheError.ErrInvalidKey :=
  empty_key_rejected sampleSimple sampleOpen (some 5) 0 rfl

/-- Counterexample to claim C5 as stated: on a closed `TTLCache` the three calls with
the empty key fail with `ErrCacheClosed`, not with `ErrInvalidKey`. -/
theorem empty_key_on_closed_cache :
    (sampleClosed.Set "" (some 5) 0).1 = some CacheError.ErrCacheClosed ∧
      (sampleClosed.Get "" 0).1 = (none, false, some CacheError.ErrCacheClosed) ∧
      (sampleClosed.Delete "").1 = some CacheError.ErrCacheClosed ∧
      (sampleClosed.Set "" (some 5) 0).1 ≠ some CacheError.ErrInvalidKey ∧
      (sampleClosed.Get "" 0).1 ≠ (none, false, some CacheError.ErrInvalidKey) ∧
      (sampleClosed.Delete "").1 ≠ some CacheError.ErrInvalidKey := by
  decide

/-! ## After Close -/

/-- Claim C6: `Close` returns nil, and in the state it leaves, also after any further
sequence of calls and sweep passes, `Set(k, v)`, `Get(k)` and `Delete(k)` return
`ErrCacheClosed` for every key `k` (the empty key included) and every value `v`,
`Get` returning `(nil, false, ErrCacheClosed)`. -/
theorem TTLCache.closed_rejects_all_calls {V : Type} (c : TTLCache V) (ops : List (TTLOp V))
    (k : String) (v : Iface V) (now : Int) :
    c.Close.1 = none ∧
      ((c.Close.2.run ops).Set k v now).1 = some CacheError.ErrCacheClosed ∧
      ((c.Close.2.run ops).Get k now).1 = (none, false, some CacheError.ErrCacheClosed) ∧
      ((c.Close.2.run ops).Delete k).1 = some CacheError.ErrCacheClosed := by
  have h0 : c.Close.2.closed = true := by
    unfold TTLCache.Close
    by_cases h : c.closed = true
    · simp [h]
    · simp [h]
  have h1 := TTLCache.run_closed_of_closed c.Close.2 ops h0
  refine ⟨?_, ?_, ?_, ?_⟩
  · unfold TTLCache.Close
    split <;> rfl
  · simp [TTLCache.Set, h1]
  · simp [TTLCache.Get, h1]
  · simp [TTLCache.Delete, h1]

/-! ## Construction -/

theorem NewTTLCacheWithConfig_of_pos (V : Type) (config : TTLCacheConfig) (h : 0 < config.TTL) :
    NewTTLCacheWithConfig V config =
      (some { data := []
              ttl := config.TTL
              cleanupInterval :=
                if config.CleanupInterval ≤ 0 then
                  if Int.tdiv config.TTL 2 < 100 * Millisecond then 100 * Millisecond
                  else Int.tdiv config.TTL 2
                else config.CleanupInterval
              done := false
              closed := false }, none) := by
  have h0 : ¬ config.TTL ≤ 0 := not_le.2 h
  simp only [NewTTLCacheWithConfig, if_neg h0, mapMake]

/-- Claim C7: `NewTTLCacheWithConfig(config)` returns `(nil, ErrInvalidTTL)` exactly
when `config.TTL <= 0`; when `config.TTL > 0` it returns, with a nil error, an
open cache whose table is empty, whatever `config.CleanupInterval` is; and
`NewTTLCache(ttl)` is `NewTTLCacheWithConfig` with `CleanupInterval = 0`. -/
theorem NewTTLCacheWithConfig_fails_iff (V : Type) (config : TTLCacheConfig) (ttl : Int) :
    (NewTTLCacheWithConfig V config = (none, some CacheError.ErrInvalidTTL) ↔
        config.TTL ≤ 0) ∧
      ((NewTTLCacheWithConfig V config).2 ≠ none ↔ config.TTL ≤ 0) ∧
      (0 < config.TTL → ∃ c : TTLCache V, NewTTLCacheWithConfig V config = (some c, none) ∧
        c.closed = false ∧ c.done = false ∧ c.data = []) ∧
      NewTTLCache V ttl = NewTTLCacheWithConfig V { TTL := ttl, CleanupInterval := 0 } := by
  refine ⟨?_, ?_, ?_, rfl⟩
  · constructor
    · intro h
      by_contra hpos
      rw [NewTTLCacheWithConfig_of_pos V config (not_le.1 hpos)] at h
      simp at h
    · intro h
      simp [NewTTLCacheWithConfig, h]
  · constructor
    · intro h
      by_contra hpos
      rw [NewTTLCacheWithConfig_of_pos V config (not_le.1 hpos)] at h
      simp at h
    · intro h
      simp [NewTTLCacheWithConfig, h]
  · intro h
    exact ⟨_, NewTTLCacheWithConfig_of_pos V config h, rfl, rfl, rfl⟩

/-- Witness for claim C7: TTL of 50ms with a negative `CleanupInterval`. -/
theorem NewTTLCacheWithConfig_fails_iff_witness :
    ∃ c : TTLCache Nat,
      NewTTLCacheWithConfig Nat { TTL := 50 * Millisecond, CleanupInterval := -1 } =
        (some c, none) ∧ c.closed = false ∧ c.done = false ∧ c.data = [] :=
  (NewTTLCacheWithConfig_fails_iff Nat { TTL := 50 * Millisecond, CleanupInterval := -1 }
    0).2.2.1 (by decide)

/-- Claim C8: a cache returned by `NewTTLCacheWithConfig(config)` has
`ttl = config.TTL > 0` and `cleanupInterval > 0`; `cleanupInterval` is
`config.CleanupInterval` when that is positive, and otherwise the larger of
`config.TTL / 2` (truncating division) and 100ms, hence at least 100ms; and no
sequence of calls and sweep passes changes `ttl` or `cleanupInterval`. -/
theorem NewTTLCacheWithConfig_intervals (V : Type) (config : TTLCacheConfig) (c : TTLCache V)
    (ops : List (TTLOp V)) (h : NewTTLCacheWithConfig V config = (some c, none)) :
    c.ttl = config.TTL ∧ 0 < c.ttl ∧ 0 < c.cleanupInterval ∧
      (0 < config.CleanupInterval → c.cleanupInterval = config.CleanupInterval) ∧
      (config.CleanupInterval ≤ 0 →
        c.cleanupInterval = max (Int.tdiv config.TTL 2) (100 * Millisecond) ∧
        100 * Millisecond ≤ c.cleanupInterval) ∧
      (c.run ops).ttl = c.ttl ∧ (c.run ops).cleanupInterval = c.cleanupInterval := by
  have hpos : 0 < config.TTL := by
    by_contra hle
    simp [NewTTLCacheWithConfig, not_lt.1 hle] at h
  rw [NewTTLCacheWithConfig_of_pos V config hpos] at h
  have hc := (Option.some.inj (congrArg Prod.fst h)).symm
  have hms : (0 : Int) < 100 * Millisecond := by decide
  refine ⟨by rw [hc], by rw [hc]; exact hpos, ?_, ?_, ?_, TTLCache.run_ttl c ops,
    TTLCache.run_cleanupInterval c ops⟩
  · rw [hc]
    show 0 < (if config.CleanupInterval ≤ 0 then
      if Int.tdiv config.TTL 2 < 100 * Millisecond then 100 * Millisecond
      else Int.tdiv config.TTL 2 else config.CleanupInterval)
    split
    · split <;> omega
    · omega
  · intro hci
    rw [hc]
    show (if config.CleanupInterval ≤ 0 then
      if Int.tdiv config.TTL 2 < 100 * Millisecond then 100 * Millisecond
      else Int.tdiv config.TTL 2 else config.CleanupInterval) = config.CleanupInterval
    rw [if_neg (not_le.2 hci)]
  · intro hci
    rw [hc]
    show (if config.CleanupInterval ≤ 0 then
        if Int.tdiv config.TTL 2 < 100 * Millisecond then 100 * Millisecond
        else Int.tdiv config.TTL 2 else config.CleanupInterval) =
          max (Int.tdiv config.TTL 2) (100 * Millisecond) ∧
      100 * Millisecond ≤ (if config.CleanupInterval ≤ 0 then
        if Int.tdiv config.TTL 2 < 100 * Millisecond then 100 * Millisecond
        else Int.tdiv config.TTL 2 else config.CleanupInterval)
    rw [if_pos hci]
    by_cases hlt : Int.tdiv config.TTL 2 < 100 * Millisecond
    · rw [if_pos hlt]
      exact ⟨(max_eq_right (le_of_lt hlt)).symm, le_refl _⟩
    · rw [if_neg hlt]
      exact ⟨(max_eq_left (not_lt.1 hlt)).symm, not_lt.1 hlt⟩

/-- Witness for claim C8: `NewTTLCache(50ms)`; half the TTL is 25ms, so the interval
is 100ms, and it is still 100ms after a `Set`, a sweep pass and a `Close`. -/
theorem NewTTLCacheWithConfig_intervals_witness :
    NewTTLCacheWithConfig Nat { TTL := 50 * Millisecond, CleanupInterval := 0 } =
        (some sampleNew, none) ∧
      sampleNew.ttl = 50 * Millisecond ∧ 0 < sampleNew.ttl ∧ 0 < sampleNew.cleanupInterval ∧
      ((0 : Int) < 0 → sampleNew.cleanupInterval = 0) ∧
      ((0 : Int) ≤ 0 →
        sampleNew.cleanupInterval =
          max (Int.tdiv (50 * Millisecond) 2) (100 * Millisecond) ∧
        100 * Millisecond ≤ sampleNew.cleanupInterval) ∧
      (sampleNew.run [TTLOp.set "a" (some 1) 5, TTLOp.sweep 9, TTLOp.close]).ttl =
        sampleNew.ttl ∧
      (sampleNew.run [TTLOp.set "a" (some 1) 5, TTLOp.sweep 9, TTLOp.close]).cleanupInterval =
        sampleNew.cleanupInterval :=
  ⟨by decide,
    NewTTLCacheWithConfig_intervals Nat { TTL := 50 * Millisecond, CleanupInterval := 0 }
      sampleNew [TTLOp.set "a" (some 1) 5, TTLOp.sweep 9, TTLOp.close] (by decide)⟩

/-! ## Delete then Get -/

namespace SimpleCache

variable {V : Type}

theorem simple_run_cons (c : SimpleCache V) (op : SimpleOp V) (ops : List (SimpleOp V)) :
    c.run (op :: ops) = (c.step op).run ops := rfl

theorem simple_step_absent (c : SimpleCache V) {k : String} {op : SimpleOp V}
    (habs : mapGet c.data k = none) (hop : SimpleOp.setsKey k op = false) :
    mapGet (c.step op).data k = none := by
  cases op with
  | set key value =>
    have hne : key ≠ k := by simpa [SimpleOp.setsKey] using hop
    by_cases hkey : key = ""
    · subst hkey
      simpa [step, Set, validateKey_empty] using habs
    · simp only [step, Set_of_ne c value hkey, mapGet_mapSet_ne _ _ hne, habs]
  | get key => simpa only [step, simple_Get_snd] using habs
  | delete key =>
    by_cases hkey : key = ""
    · subst hkey
      simpa [step, Delete, validateKey_empty] using habs
    · simp only [step, Delete_of_ne c hkey]
      by_cases hne : key = k
      · subst hne
        exact mapGet_mapDelete_self _ _
      · rw [mapGet_mapDelete_ne _ hne, habs]

theorem simple_run_absent (c : SimpleCache V) {k : String} (ops : List (SimpleOp V))
    (habs : mapGet c.data k = none) (hops : ∀ op ∈ ops, SimpleOp.setsKey k op = false) :
    mapGet (c.run ops).data k = none := by
  induction ops generalizing c with
  | nil => exact habs
  | cons op ops ih =>
    rw [simple_run_cons]
    exact ih _ (simple_step_absent c habs (hops op (List.mem_cons_self _ _)))
      (fun o ho => hops o (List.mem_cons_of_mem _ ho))

end SimpleCache

namespace TTLCache

variable {V : Type}

theorem step_absent (c : TTLCache V) {k : String} {op : TTLOp V}
    (habs : mapGet c.data k = none) (hop : TTLOp.setsKey k op = false) :
    mapGet (c.step op).data k = none := by
  cases op with
  | set key value now =>
    have hne : key ≠ k := by simpa [TTLOp.setsKey] using hop
    rcases Set_data c key value now with h | ⟨_, h⟩
    · simp only [step, h, habs]
    · simp only [step, h, mapGet_mapSet_ne _ _ hne, habs]
  | get key now => simpa only [step, Get_snd] using habs
  | delete key =>
    rcases Delete_data c key with h | h
    · simp only [step, h, habs]
    · simp only [step, h]
      by_cases hne : key = k
      · subst hne
        exact mapGet_mapDelete_self _ _
      · rw [mapGet_mapDelete_ne _ hne, habs]
  | sweep now =>
    show mapGet (c.data.foldl (cleanupEntry now) c.data) k = none
    rw [mapGet_foldl_cleanupEntry]
    split
    · rfl
    · exact habs
  | close =>
    have h : (c.step TTLOp.close).data = c.data := by
      simp only [step, Close]; split <;> rfl
    rw [h, habs]

theorem run_absent (c : TTLCache V) {k : String} (ops : List (TTLOp V))
    (habs : mapGet c.data k = none) (hops : ∀ op ∈ ops, TTLOp.setsKey k op = false) :
    mapGet (c.run ops).data k = none := by
  induction ops generalizing c with
  | nil => exact habs
  | cons op ops ih =>
    rw [run_cons]
    exact ih _ (step_absent c habs (hops op (List.mem_cons_self _ _)))
      (fun o ho => hops o (List.mem_cons_of_mem _ ho))

end TTLCache

/-- Claim C9: for a non-empty key `k`, on a `SimpleCache` in any state and on an open
`TTLCache`, whatever the table holds for `k` (nothing, a live entry or an
expired one), `Delete(k)` returns nil and a later `Get(k)` returns
`(nil, false, nil)`, whatever calls and sweep passes ran in between, as long as
none of them is a `Set(k, _)` or, for the `TTLCache`, a `Close`. -/
theorem get_after_delete {V : Type} (cs : SimpleCache V) (ct : TTLCache V) (k : String)
    (opsS : List (SimpleOp V)) (opsT : List (TTLOp V)) (now : Int)
    (hk : k ≠ "") (hopen : ct.closed = false)
    (hopsS : ∀ op ∈ opsS, SimpleOp.setsKey k op = false)
    (hopsT : ∀ op ∈ opsT, TTLOp.setsKey k op = false ∧ TTLOp.isClose op = false) :
    (cs.Delete k).1 = none ∧
      (((cs.Delete k).2.run opsS).Get k).1 = (none, false, none) ∧
      (ct.Delete k).1 = none ∧
      (((ct.Delete k).2.run opsT).Get k now).1 = (none, false, none) := by
  have hs : (cs.Delete k).2.data = mapDelete cs.data k := by
    rw [SimpleCache.Delete_of_ne cs hk]
  have ht : (ct.Delete k).2.data = mapDelete ct.data k := by
    rw [TTLCache.Delete_of_open ct hopen hk]
  have hopen1 : ((ct.Delete k).2.run opsT).closed = false := by
    rw [TTLCache.run_closed_of_not_close _ opsT (fun op hop => (hopsT op hop).2),
      TTLCache.Delete_of_open ct hopen hk]
    exact hopen
  refine ⟨by rw [SimpleCache.Delete_of_ne cs hk], ?_,
    by rw [TTLCache.Delete_of_open ct hopen hk], ?_⟩
  · exact SimpleCache.simple_Get_of_absent _ hk
      (SimpleCache.simple_run_absent _ opsS (by rw [hs]; exact mapGet_mapDelete_self _ _) hopsS)
  · exact TTLCache.Get_of_absent _ now hopen1 hk
      (TTLCache.run_absent _ opsT (by rw [ht]; exact mapGet_mapDelete_self _ _)
        (fun op hop => (hopsT op hop).1))

/-- Witness for claim C9: `"a"` is present in both caches (expired at instant 3 in the
`TTLCache`); after `Delete("a")` and calls on other keys, `Get("a")` finds nothing. -/
theorem get_after_delete_witness :
    (sampleSimple.Delete "a").1 = none ∧
      (((sampleSimple.Delete "a").2.run
        [SimpleOp.set "b" (some 2), SimpleOp.get "a", SimpleOp.delete "a"]).Get "a").1 =
        (none, false, none) ∧
      (sampleOpen.Delete "a").1 = none ∧
      (((sampleOpen.Delete "a").2.run
        [TTLOp.set "b" (some 2) 1, TTLOp.sweep 2, TTLOp.get "a" 2]).Get "a" 2).1 =
        (none, false, none) :=
  get_after_delete sampleSimple sampleOpen "a"
    [SimpleOp.set "b" (some 2), SimpleOp.get "a", SimpleOp.delete "a"]
    [TTLOp.set "b" (some 2) 1, TTLOp.sweep 2, TTLOp.get "a" 2] 2
    (by decide) rfl (by decide) (by decide)

/-! ## Delete is idempotent -/

theorem SimpleCache.simple_deleteTimes_succ {V : Type} (c : SimpleCache V) {k : String} (n : Nat)
    (hk : k ≠ "") :
    c.deleteTimes k (n + 1) = (List.replicate (n + 1) none, (c.Delete k).2) := by
  induction n generalizing c with
  | zero => simp [SimpleCache.deleteTimes, SimpleCache.Delete_of_ne c hk]
  | succ n ih =>
    have h2 : ((c.Delete k).2.Delete k).2 = (c.Delete k).2 := by
      simp only [SimpleCache.Delete_of_ne _ hk, mapDelete_mapDelete]
    show ((c.Delete k).1 :: ((c.Delete k).2.deleteTimes k (n + 1)).1,
      ((c.Delete k).2.deleteTimes k (n + 1)).2) = _
    rw [ih (c.Delete k).2, h2, SimpleCache.Delete_of_ne c hk]
    rfl

theorem TTLCache.deleteTimes_succ {V : Type} (c : TTLCache V) {k : String} (n : Nat)
    (hopen : c.closed = false) (hk : k ≠ "") :
    c.deleteTimes k (n + 1) = (List.replicate (n + 1) none, (c.Delete k).2) := by
  induction n generalizing c with
  | zero => simp [TTLCache.deleteTimes, TTLCache.Delete_of_open c hopen hk]
  | succ n ih =>
    have hopen1 : (c.Delete k).2.closed = false := by
      rw [TTLCache.Delete_of_open c hopen hk]; exact hopen
    have h2 : ((c.Delete k).2.Delete k).2 = (c.Delete k).2 := by
      rw [TTLCache.Delete_of_open _ hopen1 hk]
      simp only [TTLCache.Delete_of_open c hopen hk, mapDelete_mapDelete]
    show ((c.Delete k).1 :: ((c.Delete k).2.deleteTimes k (n + 1)).1,
      ((c.Delete k).2.deleteTimes k (n + 1)).2) = _
    rw [ih (c.Delete k).2 hopen1, h2, TTLCache.Delete_of_open c hopen hk]
    rfl

/-- Claim C10: for a non-empty key `k`, on a `SimpleCache` in any state and on an open
`TTLCache`: when the table has no entry for `k`, `Delete(k)` returns nil and
leaves the state as it was; and `Delete(k)` applied `n >= 1` times in a row
returns nil each time and leaves the state that one `Delete(k)` leaves. -/
theorem delete_idempotent {V : Type} (cs : SimpleCache V) (ct : TTLCache V) (k : String)
    (n : Nat) (hk : k ≠ "") (hopen : ct.closed = false) (hn : 1 ≤ n) :
    (mapGet cs.data k = none → cs.Delete k = (none, cs)) ∧
      (mapGet ct.data k = none → ct.Delete k = (none, ct)) ∧
      cs.deleteTimes k n = (List.replicate n none, (cs.Delete k).2) ∧
      ct.deleteTimes k n = (List.replicate n none, (ct.Delete k).2) := by
  obtain ⟨m, rfl⟩ : ∃ m, n = m + 1 := ⟨n - 1, by omega⟩
  refine ⟨?_, ?_, SimpleCache.simple_deleteTimes_succ cs m hk, TTLCache.deleteTimes_succ ct m hopen hk⟩
  · intro habs
    rw [SimpleCache.Delete_of_ne cs hk, mapDelete_of_absent _ _ habs]
  · intro habs
    rw [TTLCache.Delete_of_open ct hopen hk, mapDelete_of_absent _ _ habs]

/-- Witness for claim C10: `Delete("b")`, a key in neither table, and three
`Delete("a")` in a row. -/
theorem delete_idempotent_witness :
    (sampleSimple.Delete "b" = (none, sampleSimple) ∧
        sampleOpen.Delete "b" = (none, sampleOpen)) ∧
      sampleSimple.deleteTimes "a" 3 = (List.replicate 3 none, (sampleSimple.Delete "a").2) ∧
      sampleOpen.deleteTimes "a" 3 = (List.replicate 3 none, (sampleOpen.Delete "a").2) :=
  ⟨⟨(delete_idempotent sampleSimple sampleOpen "b" 3 (by decide) rfl (by decide)).1 rfl,
      (delete_idempotent sampleSimple sampleOpen "b" 3 (by decide) rfl (by decide)).2.1 rfl⟩,
    (delete_idempotent sampleSimple sampleOpen "a" 3 (by decide) rfl (by decide)).2.2⟩

/-! ## Close is idempotent -/

theorem TTLCache.Close_fst {V : Type} (c : TTLCache V) : c.Close.1 = none := by
  unfold TTLCache.Close
  split <;> rfl

theorem TTLCache.Close_of_closed {V : Type} (c : TTLCache V) (h : c.closed = true) :
    c.Close = (none, c) := by
  simp [TTLCache.Close, h]

theorem TTLCache.Close_closed {V : Type} (c : TTLCache V) : c.Close.2.closed = true := by
  unfold TTLCache.Close
  by_cases h : c.closed = true
  · simp [h]
  · simp [h]

theorem TTLCache.CloseChecked_eq {V : Type} (c : TTLCache V) (h : c.DoneOnlyIfClosed) :
    c.CloseChecked = some c.Close := by
  unfold TTLCache.CloseChecked TTLCache.Close
  by_cases hc : c.closed = true
  · simp [hc]
  · have hd : c.done = false := by
      by_contra hd
      exact hc (h (by simpa using hd))
    simp [hc, hd, closeChan]

theorem TTLCache.DoneOnlyIfClosed_step {V : Type} (c : TTLCache V) (op : TTLOp V)
    (h : c.DoneOnlyIfClosed) : (c.step op).DoneOnlyIfClosed := by
  cases op with
  | set key value now =>
    have h1 : (c.step (TTLOp.set key value now)).done = c.done ∧
        (c.step (TTLOp.set key value now)).closed = c.closed := by
      simp only [TTLCache.step, TTLCache.Set]; split
      · exact ⟨rfl, rfl⟩
      · split <;> exact ⟨rfl, rfl⟩
    intro hd
    rw [h1.2]; rw [h1.1] at hd; exact h hd
  | get key now => simpa only [TTLCache.step, TTLCache.Get_snd] using h
  | delete key =>
    have h1 : (c.step (TTLOp.delete key)).done = c.done ∧
        (c.step (TTLOp.delete key)).closed = c.closed := by
      simp only [TTLCache.step, TTLCache.Delete]; split
      · exact ⟨rfl, rfl⟩
      · split <;> exact ⟨rfl, rfl⟩
    intro hd
    rw [h1.2]; rw [h1.1] at hd; exact h hd
  | sweep now => exact h
  | close =>
    intro _
    exact TTLCache.Close_closed c

theorem TTLCache.DoneOnlyIfClosed_run {V : Type} (c : TTLCache V) (ops : List (TTLOp V))
    (h : c.DoneOnlyIfClosed) : (c.run ops).DoneOnlyIfClosed := by
  induction ops generalizing c with
  | nil => exact h
  | cons op ops ih =>
    rw [TTLCache.run_cons]
    exact ih _ (TTLCache.DoneOnlyIfClosed_step c op h)

/-- Claim C11: `Close` returns nil in every state; on a cache that is already closed
it returns the state as it was (table, ttl, cleanupInterval, closed flag and
shutdown signal), so `Close(); Close()` leaves the state of one `Close()`; and
the second call does not run `close(c.done)` again: with the panic of closing a
closed channel made explicit, `Close` does not panic on a closed cache, and on
every state reached from a constructed cache by calls and sweep passes it
returns what `Close` returns, also when called twice in a row. -/
theorem TTLCache.close_idempotent {V : Type} (c : TTLCache V) (config : TTLCacheConfig)
    (ops : List (TTLOp V)) :
    c.Close.1 = none ∧
      (c.closed = true → c.Close = (none, c)) ∧
      c.Close.2.Close = (none, c.Close.2) ∧
      (c.closed = true → c.CloseChecked = some (none, c)) ∧
      (NewTTLCacheWithConfig V config = (some c, none) →
        (c.run ops).CloseChecked = some (c.run ops).Close ∧
        (c.run ops).Close.2.CloseChecked = some (none, (c.run ops).Close.2)) := by
  refine ⟨TTLCache.Close_fst c, TTLCache.Close_of_closed c,
    TTLCache.Close_of_closed _ (TTLCache.Close_closed c), ?_, ?_⟩
  · intro h
    simp [TTLCache.CloseChecked, h]
  · intro h
    have hpos : 0 < config.TTL := by
      by_contra hle
      simp [NewTTLCacheWithConfig, not_lt.1 hle] at h
    rw [NewTTLCacheWithConfig_of_pos V config hpos] at h
    have hc := (Option.some.inj (congrArg Prod.fst h)).symm
    have h0 : c.DoneOnlyIfClosed := by
      intro hd
      rw [hc] at hd
      simp at hd
    refine ⟨TTLCache.CloseChecked_eq _ (TTLCache.DoneOnlyIfClosed_run c ops h0), ?_⟩
    simp [TTLCache.CloseChecked, TTLCache.Close_closed]

/-- Witness for claim C11: `sampleClosed` is closed, and `sampleNew` is what
`NewTTLCache(50ms)` returns. -/
theorem TTLCache.close_idempotent_witness :
    sampleClosed.Close = (none, sampleClosed) ∧
      sampleClosed.CloseChecked = some (none, sampleClosed) ∧
      (sampleNew.run [TTLOp.set "a" (some 1) 5, TTLOp.close, TTLOp.sweep 9]).CloseChecked =
        some (sampleNew.run [TTLOp.set "a" (some 1) 5, TTLOp.close, TTLOp.sweep 9]).Close :=
  ⟨(TTLCache.close_idempotent sampleClosed { TTL := 1, CleanupInterval := 1 } []).2.1 rfl,
    (TTLCache.close_idempotent sampleClosed { TTL := 1, CleanupInterval := 1 } []).2.2.2.1 rfl,
    ((TTLCache.close_idempotent sampleNew { TTL := 50 * Millisecond, CleanupInterval := 0 }
      [TTLOp.set "a" (some 1) 5, TTLOp.close, TTLOp.sweep 9]).2.2.2.2 (by decide)).1⟩

/-! ## One sweep pass -/

theorem mapWF_eq_of_key {T : Type} {m : GoMap T} (hwf : mapWF m) {x y : String × T}
    (hx : x ∈ m) (hy : y ∈ m) (h : x.1 = y.1) : x = y :=
  List.inj_on_of_nodup_map hwf hx hy h

theorem mapWF_filter {T : Type} {m : GoMap T} (hwf : mapWF m) (p : String × T → Bool) :
    mapWF (m.filter p) :=
  List.Nodup.sublist ((List.filter_sublist m).map Prod.fst) hwf

/-- The sweep loop keeps the entries of the table whose key no visited entry
condemns. -/
theorem foldl_cleanupEntry_eq_filter {V : Type} (now : Int) (l acc : GoMap (cacheItem V)) :
    l.foldl (TTLCache.cleanupEntry now) acc =
      acc.filter (fun e => !(l.any (fun x => decide (now > x.2.expires) && decide (x.1 = e.1)))) := by
  induction l generalizing acc with
  | nil => simp
  | cons x rest ih =>
    rw [List.foldl_cons, ih]
    unfold TTLCache.cleanupEntry
    by_cases hx : now > x.2.expires
    · rw [if_pos hx]
      simp only [mapDelete, List.filter_filter]
      apply List.filter_congr
      intro e _
      by_cases he : e.1 = x.1
      · simp [he, hx]
      · have he' : ¬ x.1 = e.1 := fun h => he h.symm
        simp [he, he', hx]
    · rw [if_neg hx]
      apply List.filter_congr
      intro e _
      simp [hx]

theorem performCleanup_data_eq_filter {V : Type} (c : TTLCache V) (now : Int)
    (hwf : mapWF c.data) :
    (c.performCleanup now).data = c.data.filter (fun e => decide (now ≤ e.2.expires)) := by
  show c.data.foldl (TTLCache.cleanupEntry now) c.data = _
  rw [foldl_cleanupEntry_eq_filter]
  apply List.filter_congr
  intro e he
  by_cases hexp : now ≤ e.2.expires
  · have : ¬ ∃ x ∈ c.data, now > x.2.expires ∧ x.1 = e.1 := by
      rintro ⟨x, hx, hxe, hk⟩
      rw [mapWF_eq_of_key hwf hx he hk] at hxe
      omega
    simpa [hexp] using this
  · have : ∃ x ∈ c.data, now > x.2.expires ∧ x.1 = e.1 := ⟨e, he, by omega, rfl⟩
    simpa [hexp] using this

/-- Claim C12, as the code has it: on a table with one entry per key, a sweep pass at
instant `now` leaves exactly the entries whose expiration instant is not before
`now` (`now ≤ expires`), in their order and each with its value and expiration
instant unchanged; the table still has one entry per key and no other field of
the cache changes. -/
theorem TTLCache.performCleanup_keeps_unexpired {V : Type} (c : TTLCache V) (now : Int)
    (hwf : mapWF c.data) :
    (c.performCleanup now).data = c.data.filter (fun e => decide (now ≤ e.2.expires)) ∧
      (∀ e, e ∈ (c.performCleanup now).data ↔ e ∈ c.data ∧ now ≤ e.2.expires) ∧
      (∀ k, mapGet (c.performCleanup now).data k =
        (mapGet c.data k).filter (fun it => decide (now ≤ it.expires))) ∧
      mapWF (c.performCleanup now).data ∧
      (c.performCleanup now).ttl = c.ttl ∧
      (c.performCleanup now).cleanupInterval = c.cleanupInterval ∧
      (c.performCleanup now).closed = c.closed ∧
      (c.performCleanup now).done = c.done := by
  have h := performCleanup_data_eq_filter c now hwf
  refine ⟨h, ?_, ?_, ?_, rfl, rfl, rfl, rfl⟩
  · intro e
    rw [h, List.mem_filter]
    simp
  · intro k
    show mapGet (c.data.foldl (TTLCache.cleanupEntry now) c.data) k = _
    rw [mapGet_foldl_cleanupEntry]
    by_cases hex : ∃ e ∈ c.data, now > e.2.expires ∧ e.1 = k
    · rw [if_pos hex]
      obtain ⟨e, he, hexp, hk⟩ := hex
      cases hget : mapGet c.data k with
      | none => rfl
      | some it =>
        have hmem := mem_of_mapGet hget
        have heq := mapWF_eq_of_key hwf he hmem hk
        have h2 : e.2.expires = it.expires := by rw [heq]
        have : ¬ now ≤ it.expires := by omega
        simp [Option.filter, this]
    · rw [if_neg hex]
      cases hget : mapGet c.data k with
      | none => rfl
      | some it =>
        have hmem := mem_of_mapGet hget
        have : now ≤ it.expires := by
          by_contra hlt
          exact hex ⟨(k, it), hmem, by simpa using hlt, rfl⟩
        simp [Option.filter, this]
  · rw [h]
    exact mapWF_filter hwf _

/-- Witness for claim C12: three entries with expiration instants 3, 5 and 7, swept at
instant 5. -/
theorem TTLCache.performCleanup_keeps_unexpired_witness :
    (sampleThree.performCleanup 5).data =
      [("b", { value := some 2, expires := 5 }), ("c", { value := none, expires := 7 })] :=
  (TTLCache.performCleanup_keeps_unexpired sampleThree 5 (by unfold mapWF; decide)).1

/-- Counterexample to claim C12 as stated: the entry `"b"` has expiration instant 5, which
is at `now = 5` and not strictly later, and it is still in the table after a
sweep pass at instant 5. -/
theorem TTLCache.performCleanup_keeps_entry_at_expiry :
    ("b", ({ value := some 2, expires := 5 } : cacheItem Nat)) ∈ sampleThree.data ∧
      ¬ ((5 : Int) < 5) ∧
      ("b", ({ value := some 2, expires := 5 } : cacheItem Nat)) ∈
        (sampleThree.performCleanup 5).data := by
  decide

/-! ## A failed call leaves the state as it was -/

/-- Claim C13: on both cache variants, whenever `Set`, `Get` or `Delete` returns a
non-nil error, the state after the call (table with every expiration instant,
closed flag and every other field) is the state before the call; and the only
errors these calls return are `ErrInvalidKey` and, on a `TTLCache`,
`ErrCacheClosed`. -/
theorem error_leaves_state {V : Type} (cs : SimpleCache V) (ct : TTLCache V) (k : String)
    (v : Iface V) (now : Int) :
    ((cs.Set k v).1 ≠ none →
        (cs.Set k v).2 = cs ∧ (cs.Set k v).1 = some CacheError.ErrInvalidKey) ∧
      ((cs.Get k).1.2.2 ≠ none →
        (cs.Get k).2 = cs ∧ (cs.Get k).1.2.2 = some CacheError.ErrInvalidKey) ∧
      ((cs.Delete k).1 ≠ none →
        (cs.Delete k).2 = cs ∧ (cs.Delete k).1 = some CacheError.ErrInvalidKey) ∧
      ((ct.Set k v now).1 ≠ none →
        (ct.Set k v now).2 = ct ∧
        ((ct.Set k v now).1 = some CacheError.ErrInvalidKey ∨
          (ct.Set k v now).1 = some CacheError.ErrCacheClosed)) ∧
      ((ct.Get k now).1.2.2 ≠ none →
        (ct.Get k now).2 = ct ∧
        ((ct.Get k now).1.2.2 = some CacheError.ErrInvalidKey ∨
          (ct.Get k now).1.2.2 = some CacheError.ErrCacheClosed)) ∧
      ((ct.Delete k).1 ≠ none →
        (ct.Delete k).2 = ct ∧
        ((ct.Delete k).1 = some CacheError.ErrInvalidKey ∨
          (ct.Delete k).1 = some CacheError.ErrCacheClosed)) := by
  by_cases hk : k = ""
  · subst hk
    by_cases hc : ct.closed = true
    · simp [SimpleCache.Set, SimpleCache.Get, SimpleCache.Delete, TTLCache.Set, TTLCache.Get,
        TTLCache.Delete, validateKey_empty, hc]
    · simp [SimpleCache.Set, SimpleCache.Get, SimpleCache.Delete, TTLCache.Set, TTLCache.Get,
        TTLCache.Delete, validateKey_empty, hc]
  · have hs : (cs.Get k).1.2.2 = none := by
      cases hget : mapGet cs.data k with
      | none => rw [SimpleCache.simple_Get_of_absent cs hk hget]
      | some value => rw [SimpleCache.simple_Get_of_bound cs hk hget]
    by_cases hc : ct.closed = true
    · simp [SimpleCache.Set, SimpleCache.Delete, TTLCache.Set, TTLCache.Get,
        TTLCache.Delete, validateKey_of_ne hk, hc, hs]
    · have hopen : ct.closed = false := by simpa using hc
      have ht : (ct.Get k now).1.2.2 = none := by
        cases hget : mapGet ct.data k with
        | none => rw [TTLCache.Get_of_absent ct now hopen hk hget]
        | some item =>
          rw [TTLCache.Get_of_bound ct now hopen hk hget]
          split <;> rfl
      simp [SimpleCache.Set, SimpleCache.Delete, TTLCache.Set,
        TTLCache.Delete, validateKey_of_ne hk, hopen, hs, ht]

/-- Witness for claim C13: the empty key on a `SimpleCache` and on an open `TTLCache`,
and a valid key on a closed `TTLCache`. -/
theorem error_leaves_state_witness :
    ((sampleSimple.Set "" (some 5)).2 = sampleSimple ∧
        (sampleSimple.Set "" (some 5)).1 = some CacheError.ErrInvalidKey) ∧
      ((sampleOpen.Delete "").2 = sampleOpen ∧
        ((sampleOpen.Delete "").1 = some CacheError.ErrInvalidKey ∨
          (sampleOpen.Delete "").1 = some CacheError.ErrCacheClosed)) ∧
      ((sampleClosed.Set "a" (some 5) 9).2 = sampleClosed ∧
        ((sampleClosed.Set "a" (some 5) 9).1 = some CacheError.ErrInvalidKey ∨
          (sampleClosed.Set "a" (some 5) 9).1 = some CacheError.ErrCacheClosed)) :=
  ⟨(error_leaves_state sampleSimple sampleOpen "" (some 5) 9).1 (by decide),
    (error_leaves_state sampleSimple sampleOpen "" (some 5) 9).2.2.2.2.2 (by decide),
    (error_leaves_state sampleSimple sampleClosed "a" (some 5) 9).2.2.2.1 (by decide)⟩

/-! ## Get leaves the table alone -/

/-- Claim C14: `(*TTLCache).Get` returns the cache as it received it, for every state,
key and instant, so the table after `Get` is the table before it; in particular
when `Get` on an open cache finds, under a non-empty key, an entry that has
expired, it reports `(nil, false, nil)` and the entry is still in the table. -/
theorem TTLCache.get_never_mutates {V : Type} (c : TTLCache V) (k : String) (now : Int) :
    (c.Get k now).2 = c ∧ (c.Get k now).2.data = c.data ∧
      ∀ item : cacheItem V, c.closed = false → k ≠ "" → mapGet c.data k = some item →
        now > item.expires →
        (c.Get k now).1 = (none, false, none) ∧ mapGet (c.Get k now).2.data k = some item := by
  have h := TTLCache.Get_snd c k now
  refine ⟨h, by rw [h], ?_⟩
  intro item hopen hk hget hnow
  rw [h, TTLCache.Get_of_bound c now hopen hk hget, if_pos hnow]
  exact ⟨rfl, hget⟩

/-- Witness for claim C14: `"a"` expired at instant 3 and is read at instant 10. -/
theorem TTLCache.get_never_mutates_witness :
    (sampleOpen.Get "a" 10).1 = (none, false, none) ∧
      mapGet (sampleOpen.Get "a" 10).2.data "a" = some { value := some 1, expires := 3 } :=
  (TTLCache.get_never_mutates sampleOpen "a" 10).2.2 { value := some 1, expires := 3 }
    rfl (by decide) rfl (by decide)

/-! ## A sweep pass is invisible to later readers -/

namespace TTLCache

variable {V : Type}

theorem AgreeFrom_performCleanup (c : TTLCache V) (s : Int) (hwf : mapWF c.data) :
    AgreeFrom s (c.performCleanup s) c := by
  refine ⟨rfl, rfl, ?_⟩
  intro k
  show (mapGet (c.data.foldl (cleanupEntry s) c.data) k).filter _ = _
  rw [mapGet_foldl_cleanupEntry]
  by_cases hex : ∃ e ∈ c.data, s > e.2.expires ∧ e.1 = k
  · rw [if_pos hex]
    obtain ⟨e, he, hexp, hk⟩ := hex
    cases hget : mapGet c.data k with
    | none => rfl
    | some it =>
      have h2 : e.2.expires = it.expires := by
        rw [mapWF_eq_of_key hwf he (mem_of_mapGet hget) hk]
      have : ¬ s ≤ it.expires := by omega
      simp [Option.filter, this]
  · rw [if_neg hex]

theorem AgreeFrom_step (s : Int) (c1 c2 : TTLCache V) {op : TTLOp V}
    (h : AgreeFrom s c1 c2) (hop : TTLOp.isSetOrDelete op = true) :
    AgreeFrom s (c1.step op) (c2.step op) := by
  obtain ⟨hclosed, httl, hdata⟩ := h
  cases op with
  | set key value now =>
    by_cases hc : c2.closed = true
    · have hc1 : c1.closed = true := by rw [hclosed, hc]
      have e1 : c1.step (TTLOp.set key value now) = c1 := by simp [step, Set, hc1]
      have e2 : c2.step (TTLOp.set key value now) = c2 := by simp [step, Set, hc]
      rw [e1, e2]
      exact ⟨hclosed, httl, hdata⟩
    · have hc2 : c2.closed = false := by simpa using hc
      have hc1 : c1.closed = false := by rw [hclosed, hc2]
      by_cases hkey : key = ""
      · subst hkey
        have e1 : c1.step (TTLOp.set "" value now) = c1 := by simp [step, Set, hc1, validateKey_empty]
        have e2 : c2.step (TTLOp.set "" value now) = c2 := by simp [step, Set, hc2, validateKey_empty]
        rw [e1, e2]
        exact ⟨hclosed, httl, hdata⟩
      · simp only [step, Set_of_open c1 value now hc1 hkey, Set_of_open c2 value now hc2 hkey]
        refine ⟨hclosed, httl, ?_⟩
        intro k
        by_cases hk : key = k
        · subst hk
          simp only [mapGet_mapSet_self, httl]
        · simp only [mapGet_mapSet_ne _ _ hk]
          exact hdata k
  | delete key =>
    by_cases hc : c2.closed = true
    · have hc1 : c1.closed = true := by rw [hclosed, hc]
      have e1 : c1.step (TTLOp.delete key) = c1 := by simp [step, Delete, hc1]
      have e2 : c2.step (TTLOp.delete key) = c2 := by simp [step, Delete, hc]
      rw [e1, e2]
      exact ⟨hclosed, httl, hdata⟩
    · have hc2 : c2.closed = false := by simpa using hc
      have hc1 : c1.closed = false := by rw [hclosed, hc2]
      by_cases hkey : key = ""
      · subst hkey
        have e1 : c1.step (TTLOp.delete "") = c1 := by simp [step, Delete, hc1, validateKey_empty]
        have e2 : c2.step (TTLOp.delete "") = c2 := by simp [step, Delete, hc2, validateKey_empty]
        rw [e1, e2]
        exact ⟨hclosed, httl, hdata⟩
      · simp only [step, Delete_of_open c1 hc1 hkey, Delete_of_open c2 hc2 hkey]
        refine ⟨hclosed, httl, ?_⟩
        intro k
        by_cases hk : key = k
        · subst hk
          simp only [mapGet_mapDelete_self]
        · simp only [mapGet_mapDelete_ne _ hk]
          exact hdata k
  | get key now => simp [TTLOp.isSetOrDelete] at hop
  | sweep now => simp [TTLOp.isSetOrDelete] at hop
  | close => simp [TTLOp.isSetOrDelete] at hop

theorem AgreeFrom_run (s : Int) (c1 c2 : TTLCache V) (ops : List (TTLOp V))
    (h : AgreeFrom s c1 c2) (hops : ∀ op ∈ ops, TTLOp.isSetOrDelete op = true) :
    AgreeFrom s (c1.run ops) (c2.run ops) := by
  induction ops generalizing c1 c2 with
  | nil => exact h
  | cons op ops ih =>
    rw [run_cons, run_cons]
    exact ih _ _ (AgreeFrom_step s c1 c2 h (hops op (List.mem_cons_self _ _)))
      (fun o ho => hops o (List.mem_cons_of_mem _ ho))

theorem AgreeFrom_Get (s t : Int) (c1 c2 : TTLCache V) (k : String)
    (h : AgreeFrom s c1 c2) (hst : s ≤ t) : (c1.Get k t).1 = (c2.Get k t).1 := by
  obtain ⟨hclosed, _, hdata⟩ := h
  by_cases hc : c2.closed = true
  · have hc1 : c1.closed = true := by rw [hclosed, hc]
    simp [Get, hc, hc1]
  · have hc2 : c2.closed = false := by simpa using hc
    have hc1 : c1.closed = false := by rw [hclosed, hc2]
    by_cases hk : k = ""
    · subst hk
      simp [Get, hc1, hc2, validateKey_empty]
    · have hd := hdata k
      cases h1 : mapGet c1.data k with
      | none =>
        rw [Get_of_absent c1 t hc1 hk h1]
        cases h2 : mapGet c2.data k with
        | none => rw [Get_of_absent c2 t hc2 hk h2]
        | some b =>
          rw [Get_of_bound c2 t hc2 hk h2]
          rw [h1, h2] at hd
          have hb : ¬ s ≤ b.expires := by
            intro hb
            simp [Option.filter, hb] at hd
          have : t > b.expires := by omega
          rw [if_pos this]
      | some a =>
        rw [Get_of_bound c1 t hc1 hk h1]
        cases h2 : mapGet c2.data k with
        | none =>
          rw [Get_of_absent c2 t hc2 hk h2]
          rw [h1, h2] at hd
          have ha : ¬ s ≤ a.expires := by
            intro ha
            simp [Option.filter, ha] at hd
          have : t > a.expires := by omega
          rw [if_pos this]
        | some b =>
          rw [Get_of_bound c2 t hc2 hk h2]
          rw [h1, h2] at hd
          by_cases ha : s ≤ a.expires
          · by_cases hb : s ≤ b.expires
            · have hab : a = b := by simpa [Option.filter, ha, hb] using hd
              rw [hab]
            · simp [Option.filter, ha, hb] at hd
          · by_cases hb : s ≤ b.expires
            · simp [Option.filter, ha, hb] at hd
            · have h3 : t > a.expires := by omega
              have h4 : t > b.expires := by omega
              rw [if_pos h3, if_pos h4]

end TTLCache

/-- Claim C16: for a `TTLCache` whose table has one entry per key, a sweep instant `s`,
a key `k` and a read instant `t ≥ s`, `Get(k)` at `t` returns the same triple
(value, found, error) after `performCleanup` at `s` as without that sweep
pass, directly and also after any sequence of `Set` and `Delete` calls applied
between the sweep pass and the read. -/
theorem TTLCache.sweep_invisible_to_readers {V : Type} (c : TTLCache V) (s t : Int)
    (k : String) (ops : List (TTLOp V)) (hwf : mapWF c.data) (hst : s ≤ t)
    (hops : ∀ op ∈ ops, TTLOp.isSetOrDelete op = true) :
    ((c.performCleanup s).Get k t).1 = (c.Get k t).1 ∧
      (((c.performCleanup s).run ops).Get k t).1 = ((c.run ops).Get k t).1 := by
  have h := TTLCache.AgreeFrom_performCleanup c s hwf
  exact ⟨TTLCache.AgreeFrom_Get s t _ _ k h hst,
    TTLCache.AgreeFrom_Get s t _ _ k (TTLCache.AgreeFrom_run s _ _ ops h hops) hst⟩

/-- Witness for claim C16: three entries expiring at 3, 5 and 7, a sweep pass at 5, a
`Delete` and a `Set` at 6, and a read of `"c"` at 6. -/
theorem TTLCache.sweep_invisible_to_readers_witness :
    ((sampleThree.performCleanup 5).Get "c" 6).1 = (sampleThree.Get "c" 6).1 ∧
      (((sampleThree.performCleanup 5).run
        [TTLOp.delete "b", TTLOp.set "a" (some 9) 6]).Get "c" 6).1 =
        ((sampleThree.run [TTLOp.delete "b", TTLOp.set "a" (some 9) 6]).Get "c" 6).1 :=
  TTLCache.sweep_invisible_to_readers sampleThree 5 6 "c"
    [TTLOp.delete "b", TTLOp.set "a" (some 9) 6] (by unfold mapWF; decide) (by decide)
    (by decide)

/-! ## The sweeper and Close -/

namespace Sweeper

variable {V : Type}

theorem fire_of_exited (s s1 : Sweeper V) (e : SweeperEvent)
    (hex : s.exited = true) (hst : s.tickerStopped = true) (h : s.fire e = some s1) :
    e = SweeperEvent.close ∧ s1.exited = true ∧ s1.tickerStopped = true ∧
      s1.cache.data = s.cache.data := by
  cases e with
  | tick => simp [fire, hst] at h
  | selectTick now => simp [fire, hex] at h
  | selectDone => simp [fire, hex] at h
  | close =>
    simp only [fire, Option.some.injEq] at h
    subst h
    refine ⟨rfl, hex, hst, ?_⟩
    show s.cache.Close.2.data = s.cache.data
    unfold TTLCache.Close
    split <;> rfl

theorem exec_of_exited (s s2 : Sweeper V) (evs : List SweeperEvent)
    (hex : s.exited = true) (hst : s.tickerStopped = true) (h : s.exec evs = some s2) :
    (∀ e ∈ evs, e = SweeperEvent.close) ∧ s2.exited = true ∧ s2.tickerStopped = true ∧
      s2.cache.data = s.cache.data := by
  induction evs generalizing s with
  | nil =>
    simp only [exec, Option.some.injEq] at h
    subst h
    exact ⟨by simp, hex, hst, rfl⟩
  | cons e es ih =>
    cases hf : s.fire e with
    | none => simp [exec, hf] at h
    | some s1 =>
      simp only [exec, hf] at h
      obtain ⟨he, hex1, hst1, hd1⟩ := fire_of_exited s s1 e hex hst hf
      obtain ⟨hall, hex2, hst2, hd2⟩ := ih s1 hex1 hst1 h
      refine ⟨?_, hex2, hst2, by rw [hd2, hd1]⟩
      intro x hx
      rcases List.mem_cons.1 hx with rfl | hx
      · exact he
      · exact hall x hx

end Sweeper

/-- Claim C15, as the code has it: when the sweeper takes the shutdown signal (which it
can only do once `done` is closed) it stops its ticker and returns, and in
every execution after that no tick is sent and no `performCleanup` pass runs:
the only steps left are `Close` calls, and the table stays as it is. After a
`Close()` has returned, a sweeper still in its loop can take the signal. -/
theorem Sweeper.stops_after_observing_signal {V : Type} (s s1 s2 : Sweeper V)
    (evs : List SweeperEvent)
    (h1 : s.fire SweeperEvent.selectDone = some s1) (h2 : s1.exec evs = some s2) :
    s.cache.done = true ∧
      s1.exited = true ∧ s1.tickerStopped = true ∧
      s2.exited = true ∧ s2.tickerStopped = true ∧
      (∀ e ∈ evs, e = SweeperEvent.close) ∧
      s2.cache.data = s1.cache.data ∧
      (∀ u : Sweeper V, u.exited = false → u.cache.closed = u.cache.done →
        ∃ u1 u2, u.fire SweeperEvent.close = some u1 ∧
          u1.fire SweeperEvent.selectDone = some u2) := by
  have hs : (!s.exited && s.cache.done) = true := by
    by_contra hn
    simp [Sweeper.fire, hn] at h1
  simp only [Sweeper.fire, hs, if_true, Option.some.injEq] at h1
  have hex1 : s1.exited = true := by rw [← h1]
  have hst1 : s1.tickerStopped = true := by rw [← h1]
  obtain ⟨hall, hex2, hst2, hd2⟩ := Sweeper.exec_of_exited s1 s2 evs hex1 hst1 h2
  refine ⟨by simpa using (Bool.and_eq_true _ _ ▸ hs).2, hex1, hst1, hex2, hst2, hall, hd2, ?_⟩
  intro u hu hinv
  have hdone : u.cache.Close.2.done = true := by
    unfold TTLCache.Close
    by_cases hc : u.cache.closed = true
    · simp only [hc, if_true]
      rw [← hinv, hc]
    · simp [hc]
  refine ⟨{ u with cache := u.cache.Close.2 },
    { u with cache := u.cache.Close.2, tickerStopped := true, exited := true }, rfl, ?_⟩
  simp [Sweeper.fire, hu, hdone]

/-- Witness for claim C15: the sweeper of `sampleClosed` takes the signal, then two more
`Close` calls run; the ticker stays stopped and the table is as it was. -/
theorem Sweeper.stops_after_observing_signal_witness :
    (Sweeper.start sampleClosed).cache.done = true ∧
      sampleStopped.exited = true ∧ sampleStopped.tickerStopped = true ∧
      sampleStopped.exited = true ∧ sampleStopped.tickerStopped = true ∧
      sampleStopped.cache.data = sampleStopped.cache.data :=
  ⟨(Sweeper.stops_after_observing_signal (Sweeper.start sampleClosed) sampleStopped
      sampleStopped [SweeperEvent.close, SweeperEvent.close] (by decide) (by decide)).1,
    (Sweeper.stops_after_observing_signal (Sweeper.start sampleClosed) sampleStopped
      sampleStopped [SweeperEvent.close, SweeperEvent.close] (by decide) (by decide)).2.1,
    (Sweeper.stops_after_observing_signal (Sweeper.start sampleClosed) sampleStopped
      sampleStopped [SweeperEvent.close, SweeperEvent.close] (by decide) (by decide)).2.2.1,
    (Sweeper.stops_after_observing_signal (Sweeper.start sampleClosed) sampleStopped
      sampleStopped [SweeperEvent.close, SweeperEvent.close] (by decide) (by decide)).2.2.2.1,
    (Sweeper.stops_after_observing_signal (Sweeper.start sampleClosed) sampleStopped
      sampleStopped [SweeperEvent.close, SweeperEvent.close] (by decide) (by decide)).2.2.2.2.1,
    (Sweeper.stops_after_observing_signal (Sweeper.start sampleClosed) sampleStopped
      sampleStopped [SweeperEvent.close, SweeperEvent.close] (by decide) (by decide)).2.2.2.2.2.2.1⟩

/-- Counterexample to claim C15 as stated: from the start state of an open cache holding an
expired entry, the steps `Close()`, a tick, and the `select` taking the tick can
be taken in this order; the `performCleanup` pass starts after `Close()` has
returned and empties the table. -/
theorem Sweeper.sweep_after_close_returned :
    (Sweeper.start sampleOpen).exec
        [SweeperEvent.close, SweeperEvent.tick, SweeperEvent.selectTick 7] =
        some { cache := { sampleClosed with data := [] }, tickPending := false,
               tickerStopped := false, exited := false } ∧
      noSweepAfterClose false
        [SweeperEvent.close, SweeperEvent.tick, SweeperEvent.selectTick 7] = false := by
  decide

/-! ## The parallel sum: partition of the slice -/

theorem spawnWorkers_succ (numbers : List Int) (q r rem i index : Nat) :
    spawnWorkers numbers q r (rem + 1) i index =
      match sliceExpr numbers index (if i < r then index + q + 1 else index + q) with
      | none => none
      | some chunk =>
        match spawnWorkers numbers q r rem (i + 1)
            (if i < r then index + q + 1 else index + q) with
        | none => none
        | some rest =>
          some ({ index := index, lastIndex := if i < r then index + q + 1 else index + q,
                  numbers := chunk, workerID := (i : Int) + 1 } :: rest) := rfl

/-- The spawning loop, started at worker `i` with `rem` workers to go and
`index` at the closed form `i * q + min i r`, does not panic and spawns `rem`
calls with the bounds given by the closed form, covering `numbers[index:]`. -/
theorem spawnWorkers_spec (numbers : List Int) (q r : Nat) (rem i index : Nat)
    (hidx : index = i * q + min i r) (hlen : (i + rem) * q + r = numbers.length)
    (hr : r ≤ i + rem) :
    ∃ calls, spawnWorkers numbers q r rem i index = some calls ∧ calls.length = rem ∧
      (∀ j c, calls[j]? = some c →
        c.index = (i + j) * q + min (i + j) r ∧
        c.lastIndex = (i + j + 1) * q + min (i + j + 1) r ∧
        c.lastIndex ≤ numbers.length ∧
        c.numbers = (numbers.drop c.index).take (c.lastIndex - c.index) ∧
        c.workerID = ((i + j : Nat) : Int) + 1) ∧
      (calls.map (fun c => c.numbers)).flatten = numbers.drop index := by
  induction rem generalizing i index with
  | zero =>
    refine ⟨[], rfl, rfl, ?_, ?_⟩
    · intro j c hc
      simp at hc
    · have : numbers.length ≤ index := by
        have h1 : min i r = r := by omega
        rw [hidx, h1, ← hlen]
        simp
      simp [List.drop_eq_nil_of_le this]
  | succ rem ih =>
    have e1 : (i + 1) * q = i * q + q := Nat.succ_mul i q
    have e2 : (i + (rem + 1)) * q = i * q + rem * q + q := by
      rw [← Nat.add_assoc, Nat.succ_mul, Nat.add_mul]
    have hL : (if i < r then index + q + 1 else index + q) = (i + 1) * q + min (i + 1) r := by
      split <;> omega
    have hLlen : (i + 1) * q + min (i + 1) r ≤ numbers.length := by omega
    have hle : index ≤ (i + 1) * q + min (i + 1) r := by omega
    have hlen1 : (i + 1 + rem) * q + r = numbers.length := by
      have : i + 1 + rem = i + (rem + 1) := by omega
      rw [this]; exact hlen
    obtain ⟨rest, hrest, hrl, hrc, hrf⟩ :=
      ih (i + 1) ((i + 1) * q + min (i + 1) r) rfl hlen1 (by omega)
    have hslice : sliceExpr numbers index ((i + 1) * q + min (i + 1) r) =
        some ((numbers.drop index).take ((i + 1) * q + min (i + 1) r - index)) := by
      simp [sliceExpr, hle, hLlen]
    refine ⟨{ index := index, lastIndex := (i + 1) * q + min (i + 1) r,
              numbers := (numbers.drop index).take ((i + 1) * q + min (i + 1) r - index),
              workerID := (i : Int) + 1 } :: rest, ?_, by simp [hrl], ?_, ?_⟩
    · rw [spawnWorkers_succ, hL, hslice, hrest]
    · intro j c hc
      cases j with
      | zero =>
        simp only [List.getElem?_cons_zero, Option.some.injEq] at hc
        subst hc
        exact ⟨hidx, rfl, hLlen, rfl, by simp⟩
      | succ j =>
        simp only [List.getElem?_cons_succ] at hc
        obtain ⟨h1, h2, h3, h4, h5⟩ := hrc j c hc
        have a1 : i + 1 + j = i + (j + 1) := by omega
        have a2 : i + 1 + j + 1 = i + (j + 1) + 1 := by omega
        rw [a1] at h1 h5
        rw [a2] at h2
        exact ⟨h1, h2, h3, h4, h5⟩
    · simp only [List.map_cons, List.flatten_cons, hrf]
      have hd : numbers.drop ((i + 1) * q + min (i + 1) r) =
          (numbers.drop index).drop ((i + 1) * q + min (i + 1) r - index) := by
        rw [List.drop_drop]
        congr 1
        omega
      rw [hd, List.take_append_drop]

/-! ## The parallel sum: the total -/

theorem wrapInt64_add_left (a b : Int) : wrapInt64 (wrapInt64 a + b) = wrapInt64 (a + b) := by
  unfold wrapInt64
  omega

theorem wrapInt64_add_right (a b : Int) : wrapInt64 (a + wrapInt64 b) = wrapInt64 (a + b) := by
  unfold wrapInt64
  omega

theorem wrapInt64_of_range (x : Int) (hlo : -9223372036854775808 ≤ x)
    (hhi : x < 9223372036854775808) : wrapInt64 x = x := by
  unfold wrapInt64
  omega

theorem tmod_two_eq_zero_iff (n : Int) : Int.tmod n 2 = 0 ↔ n % 2 = 0 := by
  rw [← Int.dvd_iff_tmod_eq_zero, ← Int.dvd_iff_emod_eq_zero]

theorem specEvenSum_cons (n : Int) (rest : List Int) :
    specEvenSum (n :: rest) = if n % 2 = 0 then n + specEvenSum rest else specEvenSum rest := by
  unfold specEvenSum
  by_cases h : n % 2 = 0
  · have hd : (fun m : Int => decide (m % 2 = 0)) n = true := decide_eq_true h
    rw [List.filter_cons, if_pos hd, List.sum_cons, if_pos h]
  · have hd : ¬ (fun m : Int => decide (m % 2 = 0)) n = true := fun hd => h (of_decide_eq_true hd)
    rw [List.filter_cons, if_neg hd, if_neg h]

theorem foldl_evenStep_fst (numbers : List Int) (a c : Int) :
    (numbers.foldl evenStep (wrapInt64 a, c)).1 = wrapInt64 (a + specEvenSum numbers) := by
  induction numbers generalizing a c with
  | nil => simp [specEvenSum]
  | cons n rest ih =>
    rw [List.foldl_cons, specEvenSum_cons]
    by_cases h : n % 2 = 0
    · have ht : Int.tmod n 2 = 0 := (tmod_two_eq_zero_iff n).2 h
      have hs : evenStep (wrapInt64 a, c) n = (wrapInt64 (a + n), c + 1) := by
        simp [evenStep, ht, wrapInt64_add_left]
      rw [hs, ih, if_pos h, Int.add_assoc]
    · have ht : ¬ Int.tmod n 2 = 0 := fun ht => h ((tmod_two_eq_zero_iff n).1 ht)
      have hs : evenStep (wrapInt64 a, c) n = (wrapInt64 a, c) := by
        simp [evenStep, ht]
      rw [hs, ih, if_neg h]

theorem calculateEvenSum_Sum (numbers : List Int) (workerID : Int) :
    (calculateEvenSum numbers workerID).Sum = wrapInt64 (specEvenSum numbers) := by
  have h := foldl_evenStep_fst numbers 0 0
  have h0 : wrapInt64 0 = 0 := by decide
  rw [h0, Int.zero_add] at h
  exact h

theorem foldl_collect (l : List WorkerResult) (a : Int) :
    l.foldl (fun totalSum result => wrapInt64 (totalSum + result.Sum)) (wrapInt64 a) =
      wrapInt64 (a + (l.map (fun x => x.Sum)).sum) := by
  induction l generalizing a with
  | nil => simp
  | cons x rest ih =>
    rw [List.foldl_cons, wrapInt64_add_left, ih, List.map_cons, List.sum_cons, Int.add_assoc]

theorem collectTotal_eq (l : List WorkerResult) :
    collectTotal l = wrapInt64 ((l.map (fun x => x.Sum)).sum) := by
  have h := foldl_collect l 0
  have h0 : wrapInt64 0 = 0 := by decide
  rw [h0, Int.zero_add] at h
  exact h

theorem wrapInt64_sum_map (l : List (List Int)) :
    wrapInt64 ((l.map (fun x => wrapInt64 (specEvenSum x))).sum) =
      wrapInt64 ((l.map specEvenSum).sum) := by
  induction l with
  | nil => rfl
  | cons x rest ih =>
    simp only [List.map_cons, List.sum_cons]
    rw [wrapInt64_add_left, ← wrapInt64_add_right, ih, wrapInt64_add_right]

theorem specEvenSum_flatten (l : List (List Int)) :
    specEvenSum l.flatten = (l.map specEvenSum).sum := by
  induction l with
  | nil => rfl
  | cons x rest ih =>
    simp only [List.flatten_cons, List.map_cons, List.sum_cons, ← ih]
    simp [specEvenSum, List.filter_append, List.sum_append]

theorem collectTotal_workerResults (calls : List WorkerCall) (arrived : List WorkerResult)
    (hperm : arrived.Perm (workerResults calls)) :
    collectTotal arrived =
      wrapInt64 (specEvenSum (calls.map (fun c => c.numbers)).flatten) := by
  rw [collectTotal_eq, (hperm.map (fun x => x.Sum)).sum_eq, specEvenSum_flatten]
  have : (workerResults calls).map (fun x => x.Sum) =
      (calls.map (fun c => c.numbers)).map (fun x => wrapInt64 (specEvenSum x)) := by
    simp [workerResults, calculateEvenSum_Sum, Function.comp_def]
  rw [this, wrapInt64_sum_map]

/-- The spawning loop run from the start with chunk size `q` and remainder `r`,
where `n * q + r` is the length of `numbers` and `r ≤ n`: it does not panic,
spawns `n` calls, and their slices are contiguous pieces that make up `numbers`. -/
theorem spawnWorkers_chunks (numbers : List Int) (q r n : Nat)
    (hlen : n * q + r = numbers.length) (hr : r ≤ n) :
    ∃ calls, spawnWorkers numbers q r n 0 0 = some calls ∧ calls.length = n ∧
      (∀ (j : Nat) (c : WorkerCall), calls[j]? = some c →
        c.index = j * q + min j r ∧
        c.lastIndex = (j + 1) * q + min (j + 1) r ∧
        c.index ≤ c.lastIndex ∧ c.lastIndex ≤ numbers.length ∧
        sliceExpr numbers c.index c.lastIndex = some c.numbers ∧
        c.numbers.length = q + (if j < r then 1 else 0) ∧
        c.workerID = (j : Int) + 1) ∧
      (∀ (j : Nat) (c c' : WorkerCall), calls[j]? = some c → calls[j + 1]? = some c' →
        c'.index = c.lastIndex) ∧
      (∀ (j j' : Nat) (c c' : WorkerCall), j < j' → calls[j]? = some c →
        calls[j']? = some c' → c.lastIndex ≤ c'.index) ∧
      (calls.map (fun c => c.numbers)).flatten = numbers := by
  obtain ⟨calls, hcalls, hl, hc, hf⟩ :=
    spawnWorkers_spec numbers q r n 0 0 (by simp) (by rw [Nat.zero_add]; exact hlen)
      (by omega)
  have hclosed : ∀ (j : Nat) (c : WorkerCall), calls[j]? = some c →
      c.index = j * q + min j r ∧
      c.lastIndex = (j + 1) * q + min (j + 1) r ∧
      c.lastIndex ≤ numbers.length ∧
      c.numbers = (numbers.drop c.index).take (c.lastIndex - c.index) ∧
      c.workerID = (j : Int) + 1 := by
    intro j c hj
    have := hc j c hj
    simpa only [Nat.zero_add] using this
  refine ⟨calls, hcalls, hl, ?_, ?_, ?_, ?_⟩
  · intro j c hj
    obtain ⟨h1, h2, h3, h4, h5⟩ := hclosed j c hj
    have e1 : (j + 1) * q = j * q + q := Nat.succ_mul _ _
    have hle : c.index ≤ c.lastIndex := by omega
    refine ⟨h1, h2, hle, h3, ?_, ?_, h5⟩
    · rw [h4]
      simp [sliceExpr, hle, h3]
    · rw [h4, List.length_take, List.length_drop]
      split <;> omega
  · intro j c c' hj hj'
    rw [(hclosed (j + 1) c' hj').1, (hclosed j c hj).2.1]
  · intro j j' c c' hjj hj hj'
    rw [(hclosed j' c' hj').1, (hclosed j c hj).2.1]
    have hm := Nat.mul_le_mul_right q (show j + 1 ≤ j' from hjj)
    omega
  · simpa using hf

/-- Claim C17, as the code has it: for every slice `numbers` and every `numWorkers > 0`,
`sumEvenNumbersConcurrently` does not panic and spawns `numWorkers` workers;
worker `j` (counting from 0, with worker ID `j + 1`) gets
`numbers[index:lastIndex]` with `index = j * q + min j r` and
`lastIndex = (j + 1) * q + min (j + 1) r`, where `q = len / numWorkers` and
`r = len % numWorkers`, so the bounds are valid, the first `r` chunks have
`q + 1` elements and the others `q`, each chunk starts where the one before it
ends, earlier chunks lie before later ones, and the chunks in order make up
`numbers`; and in whatever order the worker results arrive, `totalSum` is the
sum of all even elements of `numbers` reduced to `int64`, which is that sum
itself whenever it fits in an `int64`. -/
theorem sumEvenNumbersConcurrently_total (numbers : List Int) (numWorkers : Nat)
    (h : 0 < numWorkers) :
    ∃ calls, sumEvenNumbersConcurrently numbers numWorkers = some calls ∧
      calls.length = numWorkers ∧
      (∀ (j : Nat) (c : WorkerCall), calls[j]? = some c →
        c.index = j * (numbers.length / numWorkers) + min j (numbers.length % numWorkers) ∧
        c.lastIndex =
          (j + 1) * (numbers.length / numWorkers) + min (j + 1) (numbers.length % numWorkers) ∧
        c.index ≤ c.lastIndex ∧ c.lastIndex ≤ numbers.length ∧
        sliceExpr numbers c.index c.lastIndex = some c.numbers ∧
        c.numbers.length =
          numbers.length / numWorkers + (if j < numbers.length % numWorkers then 1 else 0) ∧
        c.workerID = (j : Int) + 1) ∧
      (∀ (j : Nat) (c c' : WorkerCall), calls[j]? = some c → calls[j + 1]? = some c' →
        c'.index = c.lastIndex) ∧
      (∀ (j j' : Nat) (c c' : WorkerCall), j < j' → calls[j]? = some c →
        calls[j']? = some c' → c.lastIndex ≤ c'.index) ∧
      (calls.map (fun c => c.numbers)).flatten = numbers ∧
      ∀ arrived : List WorkerResult, arrived.Perm (workerResults calls) →
        collectTotal arrived = wrapInt64 (specEvenSum numbers) ∧
        (-9223372036854775808 ≤ specEvenSum numbers →
          specEvenSum numbers < 9223372036854775808 →
          collectTotal arrived = specEvenSum numbers) := by
  have hn : numWorkers ≠ 0 := by omega
  obtain ⟨calls, hcalls, hl, hc, hnext, hdisj, hf⟩ :=
    spawnWorkers_chunks numbers (numbers.length / numWorkers) (numbers.length % numWorkers)
      numWorkers (Nat.div_add_mod _ _) (le_of_lt (Nat.mod_lt _ h))
  refine ⟨calls, ?_, hl, hc, hnext, hdisj, hf, ?_⟩
  · simp only [sumEvenNumbersConcurrently, if_neg hn]
    exact hcalls
  · intro arrived hperm
    have ht : collectTotal arrived = wrapInt64 (specEvenSum numbers) := by
      rw [collectTotal_workerResults calls arrived hperm, hf]
    exact ⟨ht, fun hlo hhi => by rw [ht, wrapInt64_of_range _ hlo hhi]⟩

/-- Witness for claim C17: ten numbers and four workers; the chunks are `[0:3]`, `[3:6]`,
`[6:8]` and `[8:10]`, and the total is 30 in every arrival order. -/
theorem sumEvenNumbersConcurrently_total_witness :
    ∃ calls, sumEvenNumbersConcurrently [1, 2, 3, 4, 5, 6, 7, 8, 9, 10] 4 = some calls ∧
      calls.length = 4 ∧
      (calls.map (fun c => c.numbers)).flatten = [1, 2, 3, 4, 5, 6, 7, 8, 9, 10] ∧
      ∀ arrived : List WorkerResult, arrived.Perm (workerResults calls) →
        collectTotal arrived = specEvenSum [1, 2, 3, 4, 5, 6, 7, 8, 9, 10] := by
  obtain ⟨calls, h1, h2, _, _, _, h6, h7⟩ :=
    sumEvenNumbersConcurrently_total [1, 2, 3, 4, 5, 6, 7, 8, 9, 10] 4 (by decide)
  exact ⟨calls, h1, h2, h6, fun a ha => (h7 a ha).2 (by decide) (by decide)⟩

/-- Counterexample to claim C17 as stated: two even elements `2^62` handed to two workers;
their sum is `2^63`, and `totalSum`, an `int64`, ends at `-2^63`. -/
theorem sumEvenNumbersConcurrently_overflow :
    (sumEvenNumbersConcurrently [4611686018427387904, 4611686018427387904] 2).map
        (fun calls => collectTotal (workerResults calls)) = some (-9223372036854775808) ∧
      specEvenSum [4611686018427387904, 4611686018427387904] = 9223372036854775808 := by
  decide

/-! ## Every reachable table has one entry per key -/

theorem mapWF_mapMake (T : Type) : mapWF (mapMake T) := by
  simp [mapWF, mapMake]

theorem mapWF_mapDelete {T : Type} {m : GoMap T} (hwf : mapWF m) (k : String) :
    mapWF (mapDelete m k) :=
  mapWF_filter hwf _

theorem mapWF_mapSet {T : Type} {m : GoMap T} (hwf : mapWF m) (k : String) (v : T) :
    mapWF (mapSet m k v) := by
  unfold mapWF mapSet
  rw [List.map_cons, List.nodup_cons]
  refine ⟨?_, mapWF_mapDelete hwf k⟩
  intro hmem
  obtain ⟨e, he, hk⟩ := List.mem_map.1 hmem
  exact (mem_mapDelete he).2 hk

theorem mapWF_performCleanup {V : Type} (c : TTLCache V) (now : Int) (hwf : mapWF c.data) :
    mapWF (c.performCleanup now).data := by
  show mapWF (c.data.foldl (TTLCache.cleanupEntry now) c.data)
  rw [foldl_cleanupEntry_eq_filter]
  exact mapWF_filter hwf _

theorem mapWF_step {V : Type} (c : TTLCache V) (op : TTLOp V) (hwf : mapWF c.data) :
    mapWF (c.step op).data := by
  cases op with
  | set key value now =>
    rcases TTLCache.Set_data c key value now with h | ⟨_, h⟩
    · simp only [TTLCache.step, h]; exact hwf
    · simp only [TTLCache.step, h]; exact mapWF_mapSet hwf _ _
  | get key now => simpa only [TTLCache.step, TTLCache.Get_snd] using hwf
  | delete key =>
    rcases TTLCache.Delete_data c key with h | h
    · simp only [TTLCache.step, h]; exact hwf
    · simp only [TTLCache.step, h]; exact mapWF_mapDelete hwf _
  | sweep now => exact mapWF_performCleanup c now hwf
  | close =>
    have h : (c.step TTLOp.close).data = c.data := by
      simp only [TTLCache.step, TTLCache.Close]; split <;> rfl
    rw [h]; exact hwf

/-- Every table reached from a constructed cache by calls and sweep passes has
one entry per key. -/
theorem mapWF_run_of_new {V : Type} (config : TTLCacheConfig) (c : TTLCache V)
    (ops : List (TTLOp V)) (h : NewTTLCacheWithConfig V config = (some c, none)) :
    mapWF (c.run ops).data := by
  have hpos : 0 < config.TTL := by
    by_contra hle
    simp [NewTTLCacheWithConfig, not_lt.1 hle] at h
  rw [NewTTLCacheWithConfig_of_pos V config hpos] at h
  have hc := (Option.some.inj (congrArg Prod.fst h)).symm
  have h0 : mapWF c.data := by
    rw [hc]
    exact mapWF_mapMake _
  clear h hc
  induction ops generalizing c with
  | nil => exact h0
  | cons op ops ih =>
    rw [TTLCache.run_cons]
    exact ih _ (mapWF_step c op h0)

end Cache
